import Mathlib

/-!
Verification of the in-memory lexical search engines of the buddy-agent
repository, i.e. the classes `BetterSearchEngine`
(src/buddy_agent/sub_agents/rag_retriever/better_search.py),
`LightweightSearchEngine`
(src/buddy_agent/sub_agents/rag_retriever/lightweight_search.py) and
`UltraSafeSearchEngine`
(src/buddy_agent/sub_agents/rag_retriever/ultra_safe_search.py).

Modelling conventions:
* Python `str` is modelled as `List Char` (ASCII-oriented: `str.lower`,
  `str.strip` and the regex class `\w` are modelled by `Char.toLower`,
  `Char.isWhitespace` and `Char.isAlphanum || c == '_'`).
* Python `float` scores are modelled as exact rationals.
* Python dicts are insertion-ordered association lists; assignment to an
  existing key replaces the value in place, exactly as CPython dicts do.
* Python sets of strings are modelled as duplicate-free lists; the
  implementation-defined iteration order of `list(some_set)` is modelled
  as first-occurrence order of the underlying token stream.
* The chunking `while` loops of the source do not terminate on every
  input, so they are modelled as fuel-indexed recursions that return
  `none` when the fuel is exhausted; `none` for every fuel value is the
  model of divergence.
* The `try/except` wrappers of the source can only fire on genuine
  Python runtime faults (logging errors and the like), which have no
  counterpart in the pure model, so the `except` fallbacks are not
  reachable in the embedding.
-/

/-- Python `str`, modelled as a list of characters. -/
abbrev Str := List Char

/-- A metadata dict, modelled as string key/value pairs. -/
abbrev Meta := List (Str × Str)

/-- The character of a decimal digit `d < 10`. -/
def digitChar (d : Nat) : Char := Char.ofNat (48 + d)

/-- Fuel-indexed decimal printer (structural recursion so that the kernel
can evaluate it). -/
def natToStrAux : Nat → Nat → Str
  | 0, _ => []
  | fuel + 1, n => if n < 10 then [digitChar n] else natToStrAux fuel (n / 10) ++ [digitChar (n % 10)]

/-- Decimal representation of a natural number, as used by Python
f-strings such as `f"chunk_{chunk_id}"`. -/
def natToStr (n : Nat) : Str := natToStrAux (n + 1) n

/-- Python `text.lower()`. -/
def lowerStr (s : Str) : Str := s.map Char.toLower

/-- Python `text.strip()`: drop leading and trailing whitespace. -/
def pyStrip (s : Str) : Str :=
  ((s.dropWhile Char.isWhitespace).reverse.dropWhile Char.isWhitespace).reverse

/-- Effective index of the Python slice bound `i` for a string of length
`n`: negative indices count from the end and everything is clamped into
`[0, n]`. -/
def pySliceIdx (n : Nat) (i : Int) : Nat :=
  if i < 0 then ((n : Int) + i).toNat else min i.toNat n

/-- Python `s[a:b]` with `int` bounds (possibly negative). -/
def pySlice (s : Str) (a b : Int) : Str :=
  (s.drop (pySliceIdx s.length a)).take (pySliceIdx s.length b - pySliceIdx s.length a)

/-- A regex `\w` character: alphanumeric or underscore. -/
def isWordChar (c : Char) : Bool := c.isAlphanum || c == '_'

/-- Fuel-indexed splitter extracting the maximal `\w+` runs of a string,
which is what `re.findall(r'\b\w+\b', text)` returns. -/
def wordTokensAux : Nat → Str → List Str
  | 0, _ => []
  | fuel + 1, l =>
    match l with
    | [] => []
    | c :: cs =>
      if isWordChar c then
        (c :: cs.takeWhile isWordChar) :: wordTokensAux fuel (cs.dropWhile isWordChar)
      else
        wordTokensAux fuel cs

/-- `re.findall(r'\b\w+\b', text.lower())`, the shared tokenizer of all
three engines (`_preprocess_text`). -/
def wordTokens (s : Str) : List Str :=
  wordTokensAux (lowerStr s).length (lowerStr s)

/-- `BetterSearchEngine._preprocess_text` and
`LightweightSearchEngine._preprocess_text`: tokenize, no length filter. -/
def preprocessLB (s : Str) : List Str := wordTokens s

/-- `UltraSafeSearchEngine._preprocess_text`: tokenize, then drop words
shorter than 3 characters. -/
def preprocessUS (s : Str) : List Str :=
  (wordTokens s).filter (fun w => 3 ≤ w.length)

/-- Deduplication keeping first occurrences, with an accumulator of the
elements already emitted.  Models building a Python `set` and listing it
(the concrete CPython iteration order is implementation defined; the
model fixes first-occurrence order). -/
def dedupAux (seen : List Str) : List Str → List Str
  | [] => []
  | w :: ws => if seen.contains w then dedupAux seen ws else w :: dedupAux (w :: seen) ws

/-- `list(set(tokens))` in the model: first-occurrence deduplication. -/
def dedupF (l : List Str) : List Str := dedupAux [] l

/-- Does `s` start with `p`? -/
def strStarts : Str → Str → Bool
  | [], _ => true
  | _ :: _, [] => false
  | c :: p, d :: s => c == d && strStarts p s

/-- Helper for the substring test, recursing over the haystack. -/
def strHasSubAux (p : Str) : Str → Bool
  | [] => p == []
  | c :: s => strStarts p (c :: s) || strHasSubAux p s

/-- Python `p in s` on strings: does `p` occur as a contiguous substring
of `s`? -/
def strHasSub (s p : Str) : Bool := strHasSubAux p s

/-- One chunk descriptor as produced by `chunk_document` (the dict with
keys `id`, `text`, `start_pos`, `end_pos`, `chunk_size`, `chunk_index`). -/
structure RawChunk where
  cid : Str
  text : Str
  startPos : Int
  endPos : Int
  size : Nat
  chunkIndex : Nat
deriving DecidableEq

/-- The string `"chunk_"`. -/
def chunkPre : Str := ['c', 'h', 'u', 'n', 'k', '_']

/-- `f"chunk_{chunk_id}"`. -/
def chunkName (i : Nat) : Str := chunkPre ++ natToStr i

/-- The `while` loop of `BetterSearchEngine.chunk_document` and of the
textually identical `LightweightSearchEngine.chunk_document`
(better_search.py lines 53-74, lightweight_search.py lines 67-93):
windows of `cs` characters, stripped, empty windows dropped; the next
window starts at `end - ov`; the loop breaks when the new start reaches
the end of the text or when more than 1000 chunks have been emitted.
Fuel-indexed because the loop does not always terminate. -/
def chunkLoopLB (text : Str) (cs ov : Nat) : Nat → Int → Nat → List RawChunk → Option (List RawChunk)
  | 0, _, _, _ => none
  | fuel + 1, start, cid, acc =>
    if start < (text.length : Int) then
      let e : Int := min (start + (cs : Int)) (text.length : Int)
      let ctext : Str := pyStrip (pySlice text start e)
      let acc' : List RawChunk :=
        if ctext = [] then acc else acc ++ [⟨chunkName cid, ctext, start, e, ctext.length, cid⟩]
      let cid' : Nat := if ctext = [] then cid else cid + 1
      let start' : Int := e - (ov : Int)
      if (text.length : Int) ≤ start' then some acc'
      else if 1000 < cid' then some acc'
      else chunkLoopLB text cs ov fuel start' cid' acc'
    else some acc

/-- `BetterSearchEngine.chunk_document` = `LightweightSearchEngine.chunk_document`
(defaults `chunk_size=500`, `overlap=100`). -/
def chunkDocumentLB (fuel : Nat) (text : Str) (cs ov : Nat) : Option (List RawChunk) :=
  chunkLoopLB text cs ov fuel 0 0 []

/-- `UltraSafeSearchEngine.max_chunks_per_document`. -/
def uMaxChunksPerDocument : Nat := 50

/-- The `while` loop of `UltraSafeSearchEngine.chunk_document`
(ultra_safe_search.py lines 77-98): same window walk, but the loop
condition also requires `chunk_id < max_chunks_per_document` and there is
no 1000-chunk break inside the body. -/
def chunkLoopU (text : Str) (cs ov : Nat) : Nat → Int → Nat → List RawChunk → Option (List RawChunk)
  | 0, _, _, _ => none
  | fuel + 1, start, cid, acc =>
    if start < (text.length : Int) ∧ cid < uMaxChunksPerDocument then
      let e : Int := min (start + (cs : Int)) (text.length : Int)
      let ctext : Str := pyStrip (pySlice text start e)
      let acc' : List RawChunk :=
        if ctext = [] then acc else acc ++ [⟨chunkName cid, ctext, start, e, ctext.length, cid⟩]
      let cid' : Nat := if ctext = [] then cid else cid + 1
      let start' : Int := e - (ov : Int)
      if (text.length : Int) ≤ start' then some acc'
      else chunkLoopU text cs ov fuel start' cid' acc'
    else some acc

/-- `UltraSafeSearchEngine.chunk_document` (defaults `chunk_size=800`,
`overlap=150`). -/
def chunkDocumentU (fuel : Nat) (text : Str) (cs ov : Nat) : Option (List RawChunk) :=
  chunkLoopU text cs ov fuel 0 0 []

/-- The per-document record stored in `self.documents` (keys `text`,
`metadata`, `chunk_count`, `total_chars`). -/
structure DocData where
  text : Str
  metadata : Meta
  chunkCount : Nat
  totalChars : Nat
deriving DecidableEq

/-- The per-chunk record stored in `self.chunks` (keys `document_id`,
`text`, `chunk_index`, `start_pos`, `end_pos`, `chunk_size`, `metadata`). -/
structure ChunkData where
  documentId : Str
  text : Str
  chunkIndex : Nat
  startPos : Int
  endPos : Int
  size : Nat
  metadata : Meta
deriving DecidableEq

/-- Dict assignment `m[k] = v`: replace in place if the key is present,
append otherwise (CPython dicts keep the original position of an
overwritten key). -/
def upsert {V : Type} : List (Str × V) → Str → V → List (Str × V)
  | [], k, v => [(k, v)]
  | (a, b) :: m, k, v => if a == k then (k, v) :: m else (a, b) :: upsert m k v

/-- Dict lookup `m.get(k)`. -/
def lookupAssoc {V : Type} : List (Str × V) → Str → Option V
  | [], _ => none
  | (a, b) :: m, k => if a == k then some b else lookupAssoc m k

/-- Set insertion `s.add(x)` on a posting set modelled as a list. -/
def addElem : List Str → Str → List Str
  | [], x => [x]
  | y :: l, x => if y == x then y :: l else y :: addElem l x

/-- `self.inverted_index[word].add(chunk_id)` on a `defaultdict(set)`. -/
def indexAddWord : List (Str × List Str) → Str → Str → List (Str × List Str)
  | [], w, cid => [(w, [cid])]
  | (a, ps) :: m, w, cid =>
    if a == w then (a, addElem ps cid) :: m else (a, ps) :: indexAddWord m w cid

/-- `_build_inverted_index` of the better/lightweight engines: add the
chunk id under every token of the chunk text. -/
def indexAddChunk (idx : List (Str × List Str)) (ws : List Str) (cid : Str) : List (Str × List Str) :=
  ws.foldl (fun ix w => indexAddWord ix w cid) idx

/-- Posting-set lookup: `inverted_index[word]`, empty for unknown words. -/
def lookupPostings (idx : List (Str × List Str)) (w : Str) : List Str :=
  (lookupAssoc idx w).getD []

/-- The mutable state shared by `BetterSearchEngine` and
`LightweightSearchEngine`: `collection_name`, `documents`, `chunks`,
`inverted_index` (both classes also carry the constant flag
`disk_operations_enabled = False`, which never changes and is omitted). -/
structure EngState where
  collectionName : Str
  documents : List (Str × DocData)
  chunks : List (Str × ChunkData)
  index : List (Str × List Str)
deriving DecidableEq

/-- The mutable state of `UltraSafeSearchEngine`: the same containers
plus the counters `current_chunk_count` and `current_word_count` (the
`max_*` limits are constants fixed in `__init__`). -/
structure UltraState where
  collectionName : Str
  documents : List (Str × DocData)
  chunks : List (Str × ChunkData)
  index : List (Str × List Str)
  currentChunkCount : Nat
  currentWordCount : Nat
deriving DecidableEq

/-- The string `"_"` separating document id and chunk id in
`f"{document_id}_{chunk['id']}"`. -/
def usep : Str := ['_']

/-- The body of the per-chunk loop of `BetterSearchEngine.add_document`
(better_search.py lines 120-135): store the chunk record under
`f"{document_id}_{chunk['id']}"`, then index its text. -/
def betterAddStep (docId : Str) (md : Option Meta) (st : EngState) (ch : RawChunk) : EngState :=
  let cid := docId ++ usep ++ ch.cid
  let st1 : EngState :=
    ⟨st.collectionName, st.documents,
      upsert st.chunks cid ⟨docId, ch.text, ch.chunkIndex, ch.startPos, ch.endPos, ch.size, md.getD []⟩,
      st.index⟩
  ⟨st1.collectionName, st1.documents, st1.chunks, indexAddChunk st1.index (preprocessLB ch.text) cid⟩

/-- `BetterSearchEngine.add_document` (better_search.py lines 95-142):
truncate texts over 100000 characters, chunk with the defaults, fail on
an empty chunk list, otherwise store the document record and then store
and index every chunk. -/
def betterAddDocument (fuel : Nat) (s : EngState) (docId text0 : Str) (md : Option Meta) :
    Option (EngState × Bool) :=
  let text := if 100000 < text0.length then text0.take 100000 else text0
  match chunkDocumentLB fuel text 500 100 with
  | none => none
  | some chs =>
    if chs = [] then some (s, false)
    else
      let s1 : EngState :=
        ⟨s.collectionName, upsert s.documents docId ⟨text, md.getD [], chs.length, text.length⟩,
          s.chunks, s.index⟩
      some (chs.foldl (betterAddStep docId md) s1, true)

/-- `LightweightSearchEngine.add_document` (lightweight_search.py lines
126-186), textually identical to the better engine's `add_document`
(the `disk_operations_enabled` branch is dead code: the flag is always
`False`). -/
def lightweightAddDocument (fuel : Nat) (s : EngState) (docId text0 : Str) (md : Option Meta) :
    Option (EngState × Bool) :=
  let text := if 100000 < text0.length then text0.take 100000 else text0
  match chunkDocumentLB fuel text 500 100 with
  | none => none
  | some chs =>
    if chs = [] then some (s, false)
    else
      let s1 : EngState :=
        ⟨s.collectionName, upsert s.documents docId ⟨text, md.getD [], chs.length, text.length⟩,
          s.chunks, s.index⟩
      some (chs.foldl (betterAddStep docId md) s1, true)

/-- `UltraSafeSearchEngine._build_inverted_index` (ultra_safe_search.py
lines 122-136): add words until the 1000-distinct-word cap is reached,
updating `current_word_count = len(inverted_index)` after each word and
breaking out once the cap is hit. -/
def ultraIndexAdd (cid : Str) : UltraState → List Str → UltraState
  | st, [] => st
  | st, w :: ws =>
    if st.currentWordCount < 1000 then
      let ix := indexAddWord st.index w cid
      ultraIndexAdd cid ⟨st.collectionName, st.documents, st.chunks, ix, st.currentChunkCount, ix.length⟩ ws
    else st

/-- The body of the per-chunk loop of `UltraSafeSearchEngine.add_document`
(ultra_safe_search.py lines 197-213): store the chunk record, index its
text (with the word cap) and bump `current_chunk_count`. -/
def ultraAddStep (docId : Str) (md : Option Meta) (st : UltraState) (ch : RawChunk) : UltraState :=
  let cid := docId ++ usep ++ ch.cid
  let st1 : UltraState :=
    ⟨st.collectionName, st.documents,
      upsert st.chunks cid ⟨docId, ch.text, ch.chunkIndex, ch.startPos, ch.endPos, ch.size, md.getD []⟩,
      st.index, st.currentChunkCount, st.currentWordCount⟩
  let st2 := ultraIndexAdd cid st1 (preprocessUS ch.text)
  ⟨st2.collectionName, st2.documents, st2.chunks, st2.index, st2.currentChunkCount + 1, st2.currentWordCount⟩

/-- `UltraSafeSearchEngine.add_document` (ultra_safe_search.py lines
146-224): reject at the 10-document or 200-total-chunk caps, truncate
texts over 50000 characters, chunk with the defaults, fail on an empty
chunk list, drop chunks beyond the 200-chunk budget, then store the
document and store/index each remaining chunk while bumping
`current_chunk_count`. -/
def ultraAddDocument (fuel : Nat) (s : UltraState) (docId text0 : Str) (md : Option Meta) :
    Option (UltraState × Bool) :=
  if 10 ≤ s.documents.length then some (s, false)
  else if 200 ≤ s.currentChunkCount then some (s, false)
  else
    let text := if 50000 < text0.length then text0.take 50000 else text0
    match chunkDocumentU fuel text 800 150 with
    | none => none
    | some chs0 =>
      if chs0 = [] then some (s, false)
      else
        let chs := if 200 < s.currentChunkCount + chs0.length
                   then chs0.take (200 - s.currentChunkCount) else chs0
        let s1 : UltraState :=
          ⟨s.collectionName, upsert s.documents docId ⟨text, md.getD [], chs.length, text.length⟩,
            s.chunks, s.index, s.currentChunkCount, s.currentWordCount⟩
        some (chs.foldl (ultraAddStep docId md) s1, true)

/-- The three counters returned by `get_collection_stats` (the constant
informational fields of the returned dict are omitted). -/
structure EngineStats where
  totalChunks : Nat
  totalDocuments : Nat
  totalWords : Nat
  collectionName : Str
deriving DecidableEq

/-- `UltraSafeSearchEngine.get_collection_stats`. -/
def ultraGetCollectionStats (s : UltraState) : EngineStats :=
  ⟨s.chunks.length, s.documents.length, s.index.length, s.collectionName⟩

/-- `LightweightSearchEngine.get_collection_stats`. -/
def lightweightGetCollectionStats (s : EngState) : EngineStats :=
  ⟨s.chunks.length, s.documents.length, s.index.length, s.collectionName⟩

/-- `UltraSafeSearchEngine.clear_collection` (ultra_safe_search.py lines
336-347): clear all three containers and reset both counters. -/
def ultraClearCollection (s : UltraState) : UltraState :=
  ⟨s.collectionName, [], [], [], 0, 0⟩

/-- `LightweightSearchEngine.clear_collection` (lightweight_search.py
lines 287-295): clear all three containers. -/
def lightweightClearCollection (s : EngState) : EngState :=
  ⟨s.collectionName, [], [], []⟩

/-- Addition on `ℚ` written directly on numerators and denominators via
the reduced constructor `mkRat` (the kernel can evaluate this, unlike
the `irreducible` library addition; `ratAdd_eq` proves it is plain
rational addition). -/
def ratAdd (a b : ℚ) : ℚ := mkRat (a.num * (b.den : Int) + b.num * (a.den : Int)) (a.den * b.den)

/-- Multiplication on `ℚ` via `mkRat` (see `ratMul_eq`). -/
def ratMul (a b : ℚ) : ℚ := mkRat (a.num * b.num) (a.den * b.den)

/-- The exact rational `n / d` for natural `n`, `d` (see `ratDivNat_eq`);
models Python's true division of two non-negative ints. -/
def ratDivNat (n d : Nat) : ℚ := mkRat (n : Int) d

/-- The signal breakdown computed per chunk by
`BetterSearchEngine.search_similar` (the values stored in
`chunk_scores[chunk_id]` besides the final score). -/
structure ScoreParts where
  jaccardScore : ℚ
  wordOverlap : ℚ
  phraseBonus : ℚ
  pairPhraseBonus : ℚ
  wordBonus : ℚ
  proximityBonus : ℚ
deriving DecidableEq

/-- `|A ∩ B|` for token sets modelled as duplicate-free lists. -/
def interCount (a b : List Str) : Nat := (a.filter (fun w => b.contains w)).length

/-- `|A ∪ B|` for token sets modelled as duplicate-free lists. -/
def unionCount (a b : List Str) : Nat :=
  a.length + (b.filter (fun w => !a.contains w)).length

/-- The `partial_phrase_bonus` loop of `BetterSearchEngine.search_similar`
(better_search.py lines 181-187, source name `partial_phrase_bonus`):
walk adjacent pairs of the listed query-token set and award 0.5 for the
first pair whose two words, joined by a space, occur as a substring of
the lowercased chunk text. -/
def pairPhraseLoop (cl : Str) : List Str → ℚ
  | [] => 0
  | [_] => 0
  | a :: b :: ws => if strHasSub cl (a ++ ' ' :: b) then mkRat 1 2 else pairPhraseLoop cl (b :: ws)

/-- The `individual_word_bonus` loop (better_search.py lines 190-193):
0.1 per listed query token occurring as a substring of the lowercased
chunk text. -/
def wordBonusLoop (cl : Str) : List Str → ℚ
  | [] => 0
  | w :: ws => ratAdd (if strHasSub cl w then mkRat 1 10 else 0) (wordBonusLoop cl ws)

/-- Python `list.index`: index of the first occurrence. -/
def listIndex (l : List Str) (w : Str) : Nat := l.findIdx (fun x => x == w)

/-- The `proximity_bonus` loop (better_search.py lines 196-212): 0.2 for
every adjacent pair of listed query tokens that both occur in the listed
chunk-token set at positions at most 3 apart. -/
def proximityLoop (cset : List Str) : List Str → ℚ
  | [] => 0
  | [_] => 0
  | a :: b :: ws =>
    ratAdd
      (if a ∈ cset ∧ b ∈ cset ∧ ((listIndex cset a : Int) - (listIndex cset b : Int)).natAbs ≤ 3
       then mkRat 1 5 else 0) (proximityLoop cset (b :: ws))

/-- The per-chunk scoring block of `BetterSearchEngine.search_similar`
(better_search.py lines 160-222): Jaccard, word overlap, exact-phrase
bonus, partial-phrase bonus, individual-word bonus and proximity bonus. -/
def betterScoreParts (q ctext : Str) : ScoreParts :=
  let qws := dedupF (preprocessLB q)
  let cws := dedupF (preprocessLB ctext)
  let inter := interCount qws cws
  let uni := unionCount qws cws
  let jac : ℚ := if 0 < uni then ratDivNat inter uni else 0
  let overlap : ℚ := if 0 < qws.length then ratDivNat inter qws.length else 0
  let ql := lowerStr q
  let cl := lowerStr ctext
  let phrase : ℚ := if strHasSub cl ql then 1 else 0
  let pairPhrase := pairPhraseLoop cl qws
  let wordB := wordBonusLoop cl qws
  let prox : ℚ := if 1 < qws.length then proximityLoop cws qws else 0
  ⟨jac, overlap, phrase, pairPhrase, wordB, prox⟩

/-- The `final_score` combination (better_search.py lines 215-222). -/
def betterFinalScore (p : ScoreParts) : ℚ :=
  ratAdd
    (ratAdd
      (ratAdd (ratAdd (ratAdd p.phraseBonus p.pairPhraseBonus) (ratMul p.wordOverlap (mkRat 3 10)))
        p.wordBonus)
      p.proximityBonus)
    (ratMul p.jaccardScore (mkRat 1 10))

/-- The composite relevance score of the better engine as a pure function
of query and chunk text. -/
def betterScore (q ctext : Str) : ℚ := betterFinalScore (betterScoreParts q ctext)

/-- A qualifying entry of `chunk_scores`, remembering the position `pos`
of the chunk in the insertion-ordered chunk store. -/
structure Cand where
  pos : Nat
  cid : Str
  cd : ChunkData
  parts : ScoreParts
deriving DecidableEq

/-- The final score of a candidate. -/
def candScore (c : Cand) : ℚ := betterFinalScore c.parts

/-- The scoring loop of `BetterSearchEngine.search_similar`
(better_search.py lines 158-233): walk the chunk store in insertion
order and keep every chunk whose final score reaches the threshold. -/
def betterScanChunks (q : Str) (t : ℚ) : Nat → List (Str × ChunkData) → List Cand
  | _, [] => []
  | i, (cid, cd) :: rest =>
    let p := betterScoreParts q cd.text
    (if t ≤ betterFinalScore p then [⟨i, cid, cd, p⟩] else []) ++ betterScanChunks q t (i + 1) rest

/-- `chunk_scores` of the better engine for a given state. -/
def betterCands (s : EngState) (q : Str) (t : ℚ) : List Cand :=
  betterScanChunks q t 0 s.chunks

/-- The comparator realising Python's stable

`sorted(chunk_scores.items(), key=lambda x: x[1]["similarity_score"], reverse=True)`:

a stable descending sort of a list whose positions are strictly
increasing is exactly a sort by the total order "higher score first,
equal scores by lower store position first". -/
def candLEb (a b : Cand) : Bool :=
  decide (candScore b < candScore a) ||
    (decide (candScore a = candScore b) && decide (a.pos ≤ b.pos))

/-- Insertion step of the sort. -/
def insertByB {α : Type} (le : α → α → Bool) (x : α) : List α → List α
  | [] => [x]
  | y :: l => if le x y then x :: y :: l else y :: insertByB le x l

/-- Insertion sort by a boolean total order (structural recursion, so
the kernel can evaluate it). -/
def sortByB {α : Type} (le : α → α → Bool) : List α → List α
  | [] => []
  | x :: l => insertByB le x (sortByB le l)

/-- The sorted candidate list `sorted_chunks` of the better engine. -/
def betterSorted (s : EngState) (q : Str) (t : ℚ) : List Cand :=
  sortByB candLEb (betterCands s q t)

/-- One element of the list returned by
`BetterSearchEngine.search_similar` (better_search.py lines 241-254). -/
structure BetterResult where
  documentId : Str
  chunkText : Str
  similarityScore : ℚ
  jaccardScore : ℚ
  wordOverlap : ℚ
  phraseBonus : ℚ
  pairPhraseBonus : ℚ
  wordBonus : ℚ
  proximityBonus : ℚ
  metadata : Meta
  rank : Nat
  chunkIndex : Nat
deriving DecidableEq

/-- Build one result dict from a candidate and its 1-based rank. -/
def mkBetterResult (c : Cand) (rank : Nat) : BetterResult :=
  ⟨c.cd.documentId, c.cd.text, candScore c, c.parts.jaccardScore, c.parts.wordOverlap,
    c.parts.phraseBonus, c.parts.pairPhraseBonus, c.parts.wordBonus, c.parts.proximityBonus,
    c.cd.metadata, rank, c.cd.chunkIndex⟩

/-- The result-building loop `for i, (chunk_id, scores) in
enumerate(sorted_chunks[:n_results])` with `rank = i + 1`. -/
def betterRankFrom (k : Nat) : List Cand → List BetterResult
  | [] => []
  | c :: l => mkBetterResult c k :: betterRankFrom (k + 1) l

/-- `BetterSearchEngine.search_similar` (better_search.py lines 144-257):
clamp `n_results` to 5, return `[]` for a token-less query, otherwise
score, filter by threshold, sort stably by descending score and return
the top results with ranks. -/
def betterSearchSimilar (s : EngState) (q : Str) (nres : Nat) (t : ℚ) : List BetterResult :=
  let n := min nres 5
  if dedupF (preprocessLB q) = [] then []
  else betterRankFrom 1 ((betterSorted s q t).take n)

/-- A qualifying entry of the ultra-safe `chunk_scores`. -/
structure UCand where
  pos : Nat
  cid : Str
  cd : ChunkData
  jac : ℚ
  phb : ℚ
deriving DecidableEq

/-- Final score of an ultra-safe candidate: Jaccard plus phrase bonus
(ultra_safe_search.py line 274). -/
def uScore (c : UCand) : ℚ := ratAdd c.jac c.phb

/-- The per-chunk scoring of `UltraSafeSearchEngine.search_similar`
(ultra_safe_search.py lines 257-274): Jaccard over the length-filtered
token sets plus a 0.2 exact-phrase bonus. -/
def ultraJaccard (q ctext : Str) : ℚ :=
  let qws := dedupF (preprocessUS q)
  let cws := dedupF (preprocessUS ctext)
  let uni := unionCount qws cws
  if 0 < uni then ratDivNat (interCount qws cws) uni else 0

/-- The 0.2 exact-phrase bonus of the ultra-safe scorer. -/
def ultraPhraseBonus (q ctext : Str) : ℚ :=
  if strHasSub (lowerStr ctext) (lowerStr q) then mkRat 1 5 else 0

/-- The scoring loop of `UltraSafeSearchEngine.search_similar`
(ultra_safe_search.py lines 249-283): it breaks out as soon as
`processed_chunks >= 100`, so only the first 100 entries of the chunk
store are ever scored. -/
def ultraScanChunks (q : Str) (t : ℚ) : Nat → List (Str × ChunkData) → List UCand
  | _, [] => []
  | i, (cid, cd) :: rest =>
    if 100 ≤ i then []
    else
      let j := ultraJaccard q cd.text
      let pb := ultraPhraseBonus q cd.text
      (if t ≤ ratAdd j pb then [⟨i, cid, cd, j, pb⟩] else []) ++ ultraScanChunks q t (i + 1) rest

/-- Comparator of the ultra-safe stable descending sort. -/
def uCandLEb (a b : UCand) : Bool :=
  decide (uScore b < uScore a) || (decide (uScore a = uScore b) && decide (a.pos ≤ b.pos))

/-- One element of the list returned by
`UltraSafeSearchEngine.search_similar` (ultra_safe_search.py lines
288-300). -/
structure UltraResult where
  documentId : Str
  chunkText : Str
  similarityScore : ℚ
  jaccardScore : ℚ
  phraseBonus : ℚ
  metadata : Meta
  rank : Nat
  chunkIndex : Nat
deriving DecidableEq

/-- Build one ultra-safe result dict from a candidate and its rank. -/
def mkUltraResult (c : UCand) (rank : Nat) : UltraResult :=
  ⟨c.cd.documentId, c.cd.text, uScore c, c.jac, c.phb, c.cd.metadata, rank, c.cd.chunkIndex⟩

/-- The ultra-safe result-building loop with `rank = i + 1`. -/
def ultraRankFrom (k : Nat) : List UCand → List UltraResult
  | [] => []
  | c :: l => mkUltraResult c k :: ultraRankFrom (k + 1) l

/-- `UltraSafeSearchEngine.search_similar` (ultra_safe_search.py lines
226-307): clamp `n_results` to 3, return `[]` for a token-less query,
otherwise score at most the first 100 chunks, filter by threshold, sort
stably by descending score and return the top results with ranks. -/
def ultraSearchSimilar (s : UltraState) (q : Str) (nres : Nat) (t : ℚ) : List UltraResult :=
  let n := min nres 3
  if dedupF (preprocessUS q) = [] then []
  else ultraRankFrom 1 ((sortByB uCandLEb (ultraScanChunks q t 0 s.chunks)).take n)

/-- A fresh `BetterSearchEngine` state, as built by `__init__`
(better_search.py lines 31-42). -/
def emptyEngState : EngState :=
  ⟨['b','e','t','t','e','r','_','d','o','c','u','m','e','n','t','s'], [], [], []⟩

/-- A fresh `UltraSafeSearchEngine` state, as built by `__init__`
(ultra_safe_search.py lines 33-57). -/
def emptyUltraState : UltraState :=
  ⟨['u','l','t','r','a','_','s','a','f','e','_','d','o','c','u','m','e','n','t','s'], [], [], [], 0, 0⟩

/-- Run a sequence of `BetterSearchEngine.add_document` calls (document
id, text, metadata), propagating the state returned by each call and
`none` if any chunking run exhausts its fuel. -/
def applyAdds (fuel : Nat) : EngState → List (Str × Str × Option Meta) → Option EngState
  | s, [] => some s
  | s, (d, t, m) :: ops =>
    match betterAddDocument fuel s d t m with
    | none => none
    | some (s', _) => applyAdds fuel s' ops

/-- The chunk emitted for a one-character text `[c]` at every loop
iteration after the first one (the window is stuck at `start = -99`
under the better/lightweight defaults `chunk_size=500`, `overlap=100`). -/
def stuckChunk (c : Char) (k : Nat) : RawChunk := ⟨chunkName k, [c], -99, 1, 1, k⟩

/-- The full chunk list the better/lightweight chunker produces for a
one-character text: the initial window at `start = 0` followed by 1000
copies of the stuck window. -/
def oneCharChunks (c : Char) : List RawChunk :=
  ⟨chunkName 0, [c], 0, 1, 1, 0⟩ :: (List.range' 1 1000).map (stuckChunk c)

/-- The string `"hello"`. -/
def helloT : Str := ['h', 'e', 'l', 'l', 'o']

/-- A stored chunk record used in concrete search scenarios. -/
def mkCD (d t : Str) : ChunkData := ⟨d, t, 0, 0, (t.length : Int), t.length, []⟩

/-- A populated better-engine state with two stored chunks, both with
text `"hello"`, owned by documents `"d1"` and `"d2"`. -/
def twoHelloState : EngState :=
  ⟨['b'], [(['d', '1'], ⟨helloT, [], 1, 5⟩), (['d', '2'], ⟨helloT, [], 1, 5⟩)],
    [(['c', '1'], mkCD ['d', '1'] helloT), (['c', '2'], mkCD ['d', '2'] helloT)], []⟩

/-- A populated better-engine state with one stored chunk of text
`"abcd"`. -/
def abcdState : EngState :=
  ⟨['b'], [(['d'], ⟨['a', 'b', 'c', 'd'], [], 1, 4⟩)],
    [(['c'], mkCD ['d'] ['a', 'b', 'c', 'd'])], []⟩

/-- A populated better-engine state with one stored chunk of text
`"xyz"`. -/
def xyzState : EngState :=
  ⟨['b'], [(['d'], ⟨['x', 'y', 'z'], [], 1, 3⟩)],
    [(['c'], mkCD ['d'] ['x', 'y', 'z'])], []⟩

/-- The string `"hello hello"`. -/
def helloHelloT : Str := ['h', 'e', 'l', 'l', 'o', ' ', 'h', 'e', 'l', 'l', 'o']

/-- The scorer signal named `partial_phrase_bonus` in the source, as the
pure function of query and chunk text actually computed by
`BetterSearchEngine.search_similar`. -/
def pairPhraseBonusOf (q ctext : Str) : ℚ :=
  pairPhraseLoop (lowerStr ctext) (dedupF (preprocessLB q))

/-- The add_document sequence of the C4 scenario: add document `"d"`
with text `"a"`, then re-add the same id with text `"b"`. -/
def c4ops : List (Str × Str × Option Meta) := [(['d'], ['a'], none), (['d'], ['b'], none)]

/-- The chunk id `"d_chunk_0"` produced for document `"d"`. -/
def c4cid0 : Str := ['d'] ++ usep ++ chunkName 0

/-! ### Generic lemmas about the insertion sort -/

theorem insertByB_perm {α : Type} (le : α → α → Bool) (x : α) :
    ∀ l : List α, (insertByB le x l).Perm (x :: l) := by
  intro l
  induction l with
  | nil => simp [insertByB]
  | cons y l ih =>
    simp only [insertByB]
    split
    · exact List.Perm.refl _
    · exact ((ih.cons y).trans (List.Perm.swap x y l))

theorem sortByB_perm {α : Type} (le : α → α → Bool) :
    ∀ l : List α, (sortByB le l).Perm l := by
  intro l
  induction l with
  | nil => simp [sortByB]
  | cons x l ih =>
    exact ((insertByB_perm le x (sortByB le l)).trans (ih.cons x))

theorem mem_insertByB {α : Type} {le : α → α → Bool} {x a : α} {l : List α} :
    a ∈ insertByB le x l ↔ a = x ∨ a ∈ l := by
  constructor
  · intro h
    have := (insertByB_perm le x l).mem_iff.mp h
    simpa using this
  · intro h
    apply (insertByB_perm le x l).mem_iff.mpr
    simpa using h

theorem pairwise_insertByB {α : Type} {le : α → α → Bool}
    (htot : ∀ a b, le a b = true ∨ le b a = true)
    (htr : ∀ a b c, le a b = true → le b c = true → le a c = true) (x : α) :
    ∀ l : List α, l.Pairwise (fun a b => le a b = true) →
      (insertByB le x l).Pairwise (fun a b => le a b = true) := by
  intro l
  induction l with
  | nil => intro _; simp [insertByB]
  | cons y l ih =>
    intro hp
    rcases List.pairwise_cons.mp hp with ⟨hy, hl⟩
    simp only [insertByB]
    split
    · rename_i hxy
      refine List.pairwise_cons.mpr ⟨?_, hp⟩
      intro b hb
      rcases List.mem_cons.mp hb with rfl | hb
      · exact hxy
      · exact htr x y b hxy (hy b hb)
    · rename_i hxy
      have hyx : le y x = true := by
        rcases htot x y with h | h
        · exact absurd h hxy
        · exact h
      refine List.pairwise_cons.mpr ⟨?_, ih hl⟩
      intro b hb
      rcases mem_insertByB.mp hb with rfl | hb
      · exact hyx
      · exact hy b hb

theorem pairwise_sortByB {α : Type} {le : α → α → Bool}
    (htot : ∀ a b, le a b = true ∨ le b a = true)
    (htr : ∀ a b c, le a b = true → le b c = true → le a c = true) :
    ∀ l : List α, (sortByB le l).Pairwise (fun a b => le a b = true) := by
  intro l
  induction l with
  | nil => simp [sortByB]
  | cons x l ih => exact pairwise_insertByB htot htr x _ ih

theorem candLEb_total : ∀ a b : Cand, candLEb a b = true ∨ candLEb b a = true := by
  intro a b
  simp only [candLEb, Bool.or_eq_true, Bool.and_eq_true, decide_eq_true_eq]
  rcases lt_trichotomy (candScore a) (candScore b) with h | h | h
  · right; left; exact h
  · rcases Nat.le_total a.pos b.pos with hp | hp
    · left; right; exact ⟨h, hp⟩
    · right; right; exact ⟨h.symm, hp⟩
  · left; left; exact h

theorem candLEb_trans : ∀ a b c : Cand,
    candLEb a b = true → candLEb b c = true → candLEb a c = true := by
  intro a b c hab hbc
  simp only [candLEb, Bool.or_eq_true, Bool.and_eq_true, decide_eq_true_eq] at *
  rcases hab with h1 | ⟨h1, h1p⟩ <;> rcases hbc with h2 | ⟨h2, h2p⟩
  · exact Or.inl (h2.trans h1)
  · exact Or.inl (h2 ▸ h1)
  · exact Or.inl (by rw [h1]; exact h2)
  · exact Or.inr ⟨h1.trans h2, h1p.trans h2p⟩

theorem uCandLEb_total : ∀ a b : UCand, uCandLEb a b = true ∨ uCandLEb b a = true := by
  intro a b
  simp only [uCandLEb, Bool.or_eq_true, Bool.and_eq_true, decide_eq_true_eq]
  rcases lt_trichotomy (uScore a) (uScore b) with h | h | h
  · right; left; exact h
  · rcases Nat.le_total a.pos b.pos with hp | hp
    · left; right; exact ⟨h, hp⟩
    · right; right; exact ⟨h.symm, hp⟩
  · left; left; exact h

theorem uCandLEb_trans : ∀ a b c : UCand,
    uCandLEb a b = true → uCandLEb b c = true → uCandLEb a c = true := by
  intro a b c hab hbc
  simp only [uCandLEb, Bool.or_eq_true, Bool.and_eq_true, decide_eq_true_eq] at *
  rcases hab with h1 | ⟨h1, h1p⟩ <;> rcases hbc with h2 | ⟨h2, h2p⟩
  · exact Or.inl (h2.trans h1)
  · exact Or.inl (h2 ▸ h1)
  · exact Or.inl (by rw [h1]; exact h2)
  · exact Or.inr ⟨h1.trans h2, h1p.trans h2p⟩

/-! ### Lemmas about the scoring scans and the result builders -/

theorem mem_betterScanChunks {q : Str} {t : ℚ} :
    ∀ (l : List (Str × ChunkData)) (i : Nat) (c : Cand),
      c ∈ betterScanChunks q t i l ↔
        ∃ j, l.get? j = some (c.cid, c.cd) ∧ c.pos = i + j ∧
          c.parts = betterScoreParts q c.cd.text ∧ t ≤ betterFinalScore c.parts := by
  intro l
  induction l with
  | nil => intro i c; simp [betterScanChunks]
  | cons e rest ih =>
    intro i c
    obtain ⟨cid, cd⟩ := e
    simp only [betterScanChunks, List.mem_append]
    constructor
    · intro h
      rcases h with h | h
      · rcases Classical.em (t ≤ betterFinalScore (betterScoreParts q cd.text)) with ht | ht
        · rw [if_pos ht] at h
          simp only [List.mem_singleton] at h
          subst h
          exact ⟨0, by simp, by simp, rfl, ht⟩
        · rw [if_neg ht] at h
          simp at h
      · rcases (ih (i + 1) c).mp h with ⟨j, hj, hpos, hparts, ht⟩
        exact ⟨j + 1, by simpa using hj, by omega, hparts, ht⟩
    · rintro ⟨j, hj, hpos, hparts, ht⟩
      cases j with
      | zero =>
        left
        simp only [List.get?] at hj
        injection hj with hj
        obtain ⟨hcid0, hcd0⟩ := Prod.mk.inj hj
        have hcid : c.cid = cid := hcid0.symm
        have hcd : c.cd = cd := hcd0.symm
        have hscore : t ≤ betterFinalScore (betterScoreParts q cd.text) := by
          rw [← hcd, ← hparts]; exact ht
        rw [if_pos hscore]
        simp only [List.mem_singleton]
        cases c
        simp only at hcid hcd hpos hparts
        subst hcid; subst hcd; subst hparts
        simp [hpos]
      | succ j =>
        right
        refine (ih (i + 1) c).mpr ⟨j, by simpa using hj, by omega, hparts, ht⟩

theorem betterScanChunks_pos_pairwise {q : Str} {t : ℚ} :
    ∀ (l : List (Str × ChunkData)) (i : Nat),
      (betterScanChunks q t i l).Pairwise (fun a b => a.pos < b.pos) := by
  intro l
  induction l with
  | nil => intro i; simp [betterScanChunks]
  | cons e rest ih =>
    intro i
    obtain ⟨cid, cd⟩ := e
    simp only [betterScanChunks]
    have hrest := ih (i + 1)
    split
    · refine List.pairwise_cons.mpr ⟨?_, hrest⟩
      intro b hb
      rcases (mem_betterScanChunks rest (i + 1) b).mp hb with ⟨j, _, hpos, _, _⟩
      simp only
      omega
    · simpa using hrest

theorem betterScanChunks_length_antitone {q : Str} {t t' : ℚ} (h : t ≤ t') :
    ∀ (l : List (Str × ChunkData)) (i : Nat),
      (betterScanChunks q t' i l).length ≤ (betterScanChunks q t i l).length := by
  intro l
  induction l with
  | nil => intro i; simp [betterScanChunks]
  | cons e rest ih =>
    intro i
    obtain ⟨cid, cd⟩ := e
    simp only [betterScanChunks, List.length_append]
    have := ih (i + 1)
    rcases Classical.em (t' ≤ betterFinalScore (betterScoreParts q cd.text)) with h' | h'
    · rw [if_pos h', if_pos (h.trans h')]
      simpa using this
    · rw [if_neg h']
      split <;> simp <;> omega

theorem mem_betterRankFrom {r : BetterResult} :
    ∀ (l : List Cand) (k : Nat), r ∈ betterRankFrom k l → ∃ c ∈ l, ∃ j, r = mkBetterResult c j := by
  intro l
  induction l with
  | nil => intro k h; simp [betterRankFrom] at h
  | cons c l ih =>
    intro k h
    simp only [betterRankFrom, List.mem_cons] at h
    rcases h with h | h
    · exact ⟨c, List.mem_cons_self c l, k, h⟩
    · rcases ih (k + 1) h with ⟨c', hc', j, hj⟩
      exact ⟨c', List.mem_cons_of_mem c hc', j, hj⟩

theorem betterRankFrom_length : ∀ (l : List Cand) (k : Nat), (betterRankFrom k l).length = l.length := by
  intro l
  induction l with
  | nil => intro k; simp [betterRankFrom]
  | cons c l ih => intro k; simp [betterRankFrom, ih]

theorem betterRankFrom_pairwise {R : Cand → Cand → Prop} {S : BetterResult → BetterResult → Prop}
    (h : ∀ a b i j, R a b → S (mkBetterResult a i) (mkBetterResult b j)) :
    ∀ (l : List Cand) (k : Nat), l.Pairwise R → (betterRankFrom k l).Pairwise S := by
  intro l
  induction l with
  | nil => intro k _; simp [betterRankFrom]
  | cons c l ih =>
    intro k hp
    rcases List.pairwise_cons.mp hp with ⟨hc, hl⟩
    refine List.pairwise_cons.mpr ⟨?_, ih (k + 1) hl⟩
    intro r hr
    rcases mem_betterRankFrom l (k + 1) hr with ⟨c', hc', j, rfl⟩
    exact h c c' k j (hc c' hc')

theorem betterRankFrom_forall {P : BetterResult → Prop}
    (l : List Cand) (k : Nat) (h : ∀ c ∈ l, ∀ j, P (mkBetterResult c j)) :
    ∀ r ∈ betterRankFrom k l, P r := by
  induction l generalizing k with
  | nil => intro r hr; simp [betterRankFrom] at hr
  | cons c l ih =>
    intro r hr
    simp only [betterRankFrom, List.mem_cons] at hr
    rcases hr with rfl | hr
    · exact h c (List.mem_cons_self c l) k
    · exact ih (k + 1) (fun c' hc' j => h c' (List.mem_cons_of_mem c hc') j) r hr

theorem mem_ultraScanChunks {q : Str} {t : ℚ} :
    ∀ (l : List (Str × ChunkData)) (i : Nat) (c : UCand),
      c ∈ ultraScanChunks q t i l →
        i ≤ c.pos ∧ c.pos < 100 ∧ l.get? (c.pos - i) = some (c.cid, c.cd) := by
  intro l
  induction l with
  | nil => intro i c h; simp [ultraScanChunks] at h
  | cons e rest ih =>
    intro i c h
    obtain ⟨cid, cd⟩ := e
    simp only [ultraScanChunks] at h
    split at h
    · simp at h
    · rename_i hi
      simp only [List.mem_append] at h
      rcases h with h | h
      · have : c = ⟨i, cid, cd, ultraJaccard q cd.text, ultraPhraseBonus q cd.text⟩ := by
          split at h
          · simpa using h
          · simp at h
        subst this
        refine ⟨Nat.le_refl i, show i < 100 by omega, ?_⟩
        simp
      · rcases ih (i + 1) c h with ⟨h1, h2, h3⟩
        refine ⟨by omega, h2, ?_⟩
        have : c.pos - i = (c.pos - (i + 1)) + 1 := by omega
        rw [this]
        simpa using h3

theorem mem_ultraRankFrom {r : UltraResult} :
    ∀ (l : List UCand) (k : Nat), r ∈ ultraRankFrom k l → ∃ c ∈ l, ∃ j, r = mkUltraResult c j := by
  intro l
  induction l with
  | nil => intro k h; simp [ultraRankFrom] at h
  | cons c l ih =>
    intro k h
    simp only [ultraRankFrom, List.mem_cons] at h
    rcases h with h | h
    · exact ⟨c, List.mem_cons_self c l, k, h⟩
    · rcases ih (k + 1) h with ⟨c', hc', j, hj⟩
      exact ⟨c', List.mem_cons_of_mem c hc', j, hj⟩

/-! ### Lemmas about the association lists and the inverted index -/

theorem lookupAssoc_upsert_self {V : Type} :
    ∀ (m : List (Str × V)) (k : Str) (v : V), lookupAssoc (upsert m k v) k = some v := by
  intro m
  induction m with
  | nil => intro k v; simp [upsert, lookupAssoc]
  | cons e m ih =>
    intro k v
    obtain ⟨a, b⟩ := e
    simp only [upsert]
    split
    · simp [lookupAssoc]
    · rename_i hne
      simp only [lookupAssoc]
      rw [if_neg hne]
      exact ih k v

theorem lookupAssoc_upsert_ne {V : Type} {k k' : Str} (hne : k' ≠ k) :
    ∀ (m : List (Str × V)) (v : V), lookupAssoc (upsert m k v) k' = lookupAssoc m k' := by
  intro m
  induction m with
  | nil =>
    intro v
    simp only [upsert, lookupAssoc]
    rw [if_neg (by simpa using Ne.symm hne)]
  | cons e m ih =>
    intro v
    obtain ⟨a, b⟩ := e
    simp only [upsert]
    split
    · rename_i hak
      have ha : a = k := by simpa using hak
      subst ha
      simp only [lookupAssoc]
      rw [if_neg (by simpa using Ne.symm hne), if_neg (by simpa using Ne.symm hne)]
    · simp only [lookupAssoc]
      by_cases hk : (a == k') = true
      · rw [if_pos hk, if_pos hk]
      · rw [if_neg hk, if_neg hk]
        exact ih v

theorem mem_upsert {V : Type} {a : Str} {b : V} :
    ∀ {m : List (Str × V)} {k : Str} {v : V},
      (a, b) ∈ upsert m k v → (a = k ∧ b = v) ∨ (a, b) ∈ m := by
  intro m
  induction m with
  | nil =>
    intro k v h
    simp only [upsert, List.mem_singleton] at h
    exact Or.inl (Prod.mk.inj h)
  | cons e m ih =>
    intro k v h
    obtain ⟨x, y⟩ := e
    simp only [upsert] at h
    split at h
    · rcases List.mem_cons.mp h with h | h
      · exact Or.inl (Prod.mk.inj h)
      · exact Or.inr (List.mem_cons_of_mem _ h)
    · rcases List.mem_cons.mp h with h | h
      · exact Or.inr (List.mem_cons.mpr (Or.inl h))
      · rcases ih h with h | h
        · exact Or.inl h
        · exact Or.inr (List.mem_cons_of_mem _ h)

theorem mem_addElem_self : ∀ (l : List Str) (x : Str), x ∈ addElem l x := by
  intro l
  induction l with
  | nil => intro x; simp [addElem]
  | cons y l ih =>
    intro x
    simp only [addElem]
    split
    · rename_i h
      have : y = x := by simpa using h
      subst this
      exact List.mem_cons_self y l
    · exact List.mem_cons_of_mem y (ih x)

theorem mem_addElem_of_mem {x : Str} : ∀ {l : List Str} (y : Str), x ∈ l → x ∈ addElem l y := by
  intro l
  induction l with
  | nil => intro y h; simp at h
  | cons z l ih =>
    intro y h
    simp only [addElem]
    split
    · exact h
    · rcases List.mem_cons.mp h with rfl | h
      · exact List.mem_cons_self x _
      · exact List.mem_cons_of_mem z (ih y h)

theorem lookupPostings_indexAddWord_self (w cid : Str) :
    ∀ idx : List (Str × List Str), cid ∈ lookupPostings (indexAddWord idx w cid) w := by
  intro idx
  induction idx with
  | nil => simp [indexAddWord, lookupPostings, lookupAssoc]
  | cons e idx ih =>
    obtain ⟨a, ps⟩ := e
    simp only [indexAddWord]
    split
    · rename_i haw
      have : a = w := by simpa using haw
      subst this
      simp only [lookupPostings, lookupAssoc]
      rw [if_pos (by simp)]
      simpa using mem_addElem_self ps cid
    · rename_i haw
      simp only [lookupPostings, lookupAssoc]
      have hwa : (w == a) = false := by
        cases h : w == a
        · rfl
        · exfalso
          have : w = a := by simpa using h
          subst this
          simp at haw
      rw [if_neg ?_]
      · exact ih
      · intro h
        have : a = w := by simpa using h
        subst this
        simp at haw

theorem lookupPostings_indexAddWord_mono {x v : Str} (w cid : Str) :
    ∀ idx : List (Str × List Str),
      x ∈ lookupPostings idx v → x ∈ lookupPostings (indexAddWord idx w cid) v := by
  intro idx
  induction idx with
  | nil => intro h; simp [lookupPostings, lookupAssoc] at h
  | cons e idx ih =>
    obtain ⟨a, ps⟩ := e
    intro h
    simp only [lookupPostings, lookupAssoc] at h
    simp only [indexAddWord]
    split
    · rename_i haw
      have : a = w := by simpa using haw
      subst this
      simp only [lookupPostings, lookupAssoc]
      split at h
      · rename_i hva
        rw [if_pos hva]
        simpa using mem_addElem_of_mem cid (by simpa using h)
      · rename_i hva
        rw [if_neg hva]
        exact h
    · simp only [lookupPostings, lookupAssoc]
      split at h
      · rename_i hva
        rw [if_pos hva]
        exact h
      · rename_i hva
        rw [if_neg hva]
        exact ih h

theorem lookupPostings_indexAddChunk_mono {x v cid : Str} :
    ∀ (ws : List Str) (idx : List (Str × List Str)),
      x ∈ lookupPostings idx v → x ∈ lookupPostings (indexAddChunk idx ws cid) v := by
  intro ws
  induction ws with
  | nil => intro idx h; simpa [indexAddChunk] using h
  | cons w ws ih =>
    intro idx h
    simp only [indexAddChunk, List.foldl_cons]
    exact ih _ (lookupPostings_indexAddWord_mono w cid idx h)

theorem lookupPostings_indexAddChunk_self {w cid : Str} :
    ∀ (ws : List Str) (idx : List (Str × List Str)),
      w ∈ ws → cid ∈ lookupPostings (indexAddChunk idx ws cid) w := by
  intro ws
  induction ws with
  | nil => intro idx h; simp at h
  | cons w' ws ih =>
    intro idx h
    simp only [indexAddChunk, List.foldl_cons]
    rcases List.mem_cons.mp h with rfl | h
    · exact lookupPostings_indexAddChunk_mono ws _ (lookupPostings_indexAddWord_self w cid idx)
    · exact ih _ h

/-! ### Claim C1: a failed add_document leaves the state unchanged -/

theorem ultraAdd_false_eq {fuel : Nat} {s : UltraState} {d t0 : Str} {md : Option Meta}
    {s2 : UltraState} (h : ultraAddDocument fuel s d t0 md = some (s2, false)) : s2 = s := by
  simp only [ultraAddDocument] at h
  split at h
  · simp only [Option.some.injEq, Prod.mk.injEq] at h
    exact h.1.symm
  · split at h
    · simp only [Option.some.injEq, Prod.mk.injEq] at h
      exact h.1.symm
    · split at h
      · exact absurd h (by simp)
      · split at h
        · simp only [Option.some.injEq, Prod.mk.injEq] at h
          exact h.1.symm
        · simp only [Option.some.injEq, Prod.mk.injEq] at h
          exact absurd h.2 (by simp)

theorem lightweightAdd_false_eq {fuel : Nat} {s : EngState} {d t0 : Str} {md : Option Meta}
    {s2 : EngState} (h : lightweightAddDocument fuel s d t0 md = some (s2, false)) : s2 = s := by
  simp only [lightweightAddDocument] at h
  split at h
  · exact absurd h (by simp)
  · split at h
    · simp only [Option.some.injEq, Prod.mk.injEq] at h
      exact h.1.symm
    · simp only [Option.some.injEq, Prod.mk.injEq] at h
      exact absurd h.2 (by simp)

/-- Claim C1: for every engine state, document id, text and metadata, if
`add_document` returns failure (`False`) then the engine state — in
particular its documents map, chunks map and inverted index — is exactly
as it was before the call, for both the ultra-safe and the lightweight
engine (every failing return of the source precedes the first mutation). -/
theorem claim1_add_failure_preserves_state :
    (∀ (fuel : Nat) (s : UltraState) (d t0 : Str) (md : Option Meta) (s2 : UltraState),
       ultraAddDocument fuel s d t0 md = some (s2, false) →
         s2.documents = s.documents ∧ s2.chunks = s.chunks ∧ s2.index = s.index ∧ s2 = s) ∧
    (∀ (fuel : Nat) (s : EngState) (d t0 : Str) (md : Option Meta) (s2 : EngState),
       lightweightAddDocument fuel s d t0 md = some (s2, false) →
         s2.documents = s.documents ∧ s2.chunks = s.chunks ∧ s2.index = s.index ∧ s2 = s) := by
  constructor
  · intro fuel s d t0 md s2 h
    have he := ultraAdd_false_eq h
    subst he
    exact ⟨rfl, rfl, rfl, rfl⟩
  · intro fuel s d t0 md s2 h
    have he := lightweightAdd_false_eq h
    subst he
    exact ⟨rfl, rfl, rfl, rfl⟩

/-- Witness for C1: a concrete failing call on each engine (empty text,
so chunking yields no chunks) applied through the claim theorem. -/
theorem claim1_witness :
    (ultraAddDocument 1 emptyUltraState ['d'] [] none = some (emptyUltraState, false)) ∧
    (lightweightAddDocument 1 emptyEngState ['d'] [] none = some (emptyEngState, false)) ∧
    (emptyUltraState.documents = emptyUltraState.documents ∧
      emptyUltraState.chunks = emptyUltraState.chunks ∧
      emptyUltraState.index = emptyUltraState.index ∧ emptyUltraState = emptyUltraState) ∧
    (emptyEngState.documents = emptyEngState.documents ∧
      emptyEngState.chunks = emptyEngState.chunks ∧
      emptyEngState.index = emptyEngState.index ∧ emptyEngState = emptyEngState) := by
  refine ⟨by decide, by decide, ?_, ?_⟩
  · exact claim1_add_failure_preserves_state.1 1 emptyUltraState ['d'] [] none emptyUltraState (by decide)
  · exact claim1_add_failure_preserves_state.2 1 emptyEngState ['d'] [] none emptyEngState (by decide)

/-! ### Claim C9: clear is idempotent and zeroes the stats -/

/-- Claim C9: for every collection state (populated or empty), clearing
and then reading the stats yields zero documents, zero chunks and zero
indexed terms; `clear` always succeeds (it is a total function of the
state) and is idempotent, for both the ultra-safe and the lightweight
engine. -/
theorem claim9_clear_idempotent (su : UltraState) (sl : EngState) :
    (ultraGetCollectionStats (ultraClearCollection su)).totalDocuments = 0 ∧
    (ultraGetCollectionStats (ultraClearCollection su)).totalChunks = 0 ∧
    (ultraGetCollectionStats (ultraClearCollection su)).totalWords = 0 ∧
    ultraClearCollection (ultraClearCollection su) = ultraClearCollection su ∧
    (lightweightGetCollectionStats (lightweightClearCollection sl)).totalDocuments = 0 ∧
    (lightweightGetCollectionStats (lightweightClearCollection sl)).totalChunks = 0 ∧
    (lightweightGetCollectionStats (lightweightClearCollection sl)).totalWords = 0 ∧
    lightweightClearCollection (lightweightClearCollection sl) = lightweightClearCollection sl :=
  ⟨rfl, rfl, rfl, rfl, rfl, rfl, rfl, rfl⟩

/-! ### Claim C3: the chunking loop can fail to make progress -/

theorem chunkLoopLB_space_stuck :
    ∀ fuel : Nat, chunkLoopLB [' '] 500 100 fuel (-99) 0 [] = none := by
  intro fuel
  induction fuel with
  | zero => rfl
  | succ n ih => exact Eq.trans (by rfl) ih

theorem chunkLoopU_space_stuck :
    ∀ fuel : Nat, chunkLoopU [' '] 800 150 fuel (-149) 0 [] = none := by
  intro fuel
  induction fuel with
  | zero => rfl
  | succ n ih => exact Eq.trans (by rfl) ih

/-- Claim C3 (code_bug evidence): on the one-space document `" "`, under
the engines' own default configurations (`overlap < chunk_size`, so even
a valid configuration), `chunk_document` never terminates: every window
strips to the empty string, the chunk counter never advances, and the
window start gets stuck (`-99` resp. `-149`), so the loop body repeats
for ever — in the fuel model the loop returns `none` for every fuel.
No configuration check for `overlap >= chunk_size` exists anywhere in
the source either; the over-1000 / 50-chunk call-time breaks are the
only guards, and they only fire on non-empty windows. -/
theorem claim3_chunking_diverges :
    (∀ fuel : Nat, chunkDocumentLB fuel [' '] 500 100 = none) ∧
    (∀ fuel : Nat, chunkDocumentU fuel [' '] 800 150 = none) := by
  constructor
  · intro fuel
    cases fuel with
    | zero => rfl
    | succ n => exact Eq.trans (by rfl) (chunkLoopLB_space_stuck n)
  · intro fuel
    cases fuel with
    | zero => rfl
    | succ n => exact Eq.trans (by rfl) (chunkLoopU_space_stuck n)

/-! ### Claim C5: chunk-count bounds of the chunkers -/

theorem chunkLoopLB_length_le (text : Str) (cs ov : Nat) :
    ∀ (fuel : Nat) (start : Int) (cid : Nat) (acc : List RawChunk) (l : List RawChunk),
      acc.length = cid → cid ≤ 1000 →
      chunkLoopLB text cs ov fuel start cid acc = some l → l.length ≤ 1001 := by
  intro fuel
  induction fuel with
  | zero => intro start cid acc l _ _ h; exact absurd h (by simp [chunkLoopLB])
  | succ n ih =>
    intro start cid acc l hlen hcid h
    simp only [chunkLoopLB] at h
    split at h
    · split at h
      · split at h
        · injection h with h
          subst h
          omega
        · injection h with h
          subst h
          simp only [List.length_append, List.length_singleton]
          omega
      · split at h
        · split at h
          · injection h with h
            subst h
            omega
          · exact ih _ _ _ l hlen hcid h
        · split at h
          · injection h with h
            subst h
            simp only [List.length_append, List.length_singleton]
            omega
          · rename_i hbreak
            refine ih _ _ _ l ?_ ?_ h
            · simp only [List.length_append, List.length_singleton]
              omega
            · omega
    · injection h with h
      subst h
      omega

theorem chunkLoopU_length_le (text : Str) (cs ov : Nat) :
    ∀ (fuel : Nat) (start : Int) (cid : Nat) (acc : List RawChunk) (l : List RawChunk),
      acc.length = cid → cid ≤ uMaxChunksPerDocument →
      chunkLoopU text cs ov fuel start cid acc = some l → l.length ≤ uMaxChunksPerDocument := by
  intro fuel
  induction fuel with
  | zero => intro start cid acc l _ _ h; exact absurd h (by simp [chunkLoopU])
  | succ n ih =>
    intro start cid acc l hlen hcid h
    simp only [chunkLoopU] at h
    split at h
    · rename_i hcond
      split at h
      · split at h
        · injection h with h
          subst h
          omega
        · injection h with h
          subst h
          simp only [List.length_append, List.length_singleton]
          simp only [uMaxChunksPerDocument] at *
          omega
      · split at h
        · exact ih _ _ _ l hlen hcid h
        · refine ih _ _ _ l ?_ ?_ h
          · simp only [List.length_append, List.length_singleton]
            omega
          · simp only [uMaxChunksPerDocument] at *
            omega
    · injection h with h
      subst h
      omega

theorem pyStrip_single {c : Char} (hc : c.isWhitespace = false) : pyStrip [c] = [c] := by
  simp [pyStrip, List.dropWhile, hc]

theorem chunkLoopLB_one_first {c : Char} (hc : c.isWhitespace = false) (n : Nat) :
    chunkLoopLB [c] 500 100 (n + 1) 0 0 [] =
      chunkLoopLB [c] 500 100 n (-99) 1 [⟨chunkName 0, [c], 0, 1, 1, 0⟩] := by
  have hslice : pySlice [c] 0 1 = [c] := rfl
  have hstrip : pyStrip (pySlice [c] 0 1) = [c] := by
    rw [hslice]
    exact pyStrip_single hc
  have hmin : min ((0 : Int) + (500 : Nat)) (([c] : Str).length : Int) = 1 := by
    simp
  simp only [chunkLoopLB, hmin, hstrip]
  norm_num

theorem chunkLoopLB_one_step {c : Char} (hc : c.isWhitespace = false) (n k : Nat) (acc : List RawChunk)
    (hk : k ≤ 999) :
    chunkLoopLB [c] 500 100 (n + 1) (-99) k acc =
      chunkLoopLB [c] 500 100 n (-99) (k + 1) (acc ++ [stuckChunk c k]) := by
  have hslice : pySlice [c] (-99) 1 = [c] := rfl
  have hstrip : pyStrip (pySlice [c] (-99) 1) = [c] := by
    rw [hslice]
    exact pyStrip_single hc
  have hmin : min ((-99 : Int) + (500 : Nat)) (([c] : Str).length : Int) = 1 := by
    simp
  simp only [chunkLoopLB, hmin, hstrip, stuckChunk]
  norm_num
  omega

theorem chunkLoopLB_one_last {c : Char} (hc : c.isWhitespace = false) (n : Nat) (acc : List RawChunk) :
    chunkLoopLB [c] 500 100 (n + 1) (-99) 1000 acc = some (acc ++ [stuckChunk c 1000]) := by
  have hslice : pySlice [c] (-99) 1 = [c] := rfl
  have hstrip : pyStrip (pySlice [c] (-99) 1) = [c] := by
    rw [hslice]
    exact pyStrip_single hc
  have hmin : min ((-99 : Int) + (500 : Nat)) (([c] : Str).length : Int) = 1 := by
    simp
  simp only [chunkLoopLB, hmin, hstrip, stuckChunk]
  norm_num

theorem chunkLoopLB_one_closed {c : Char} (hc : c.isWhitespace = false) :
    ∀ (n k : Nat) (acc : List RawChunk), 1 ≤ k → k ≤ 1000 → 1001 - k ≤ n →
      chunkLoopLB [c] 500 100 n (-99) k acc =
        some (acc ++ (List.range' k (1001 - k)).map (stuckChunk c)) := by
  intro n
  induction n with
  | zero => intro k acc h1 hk hn; omega
  | succ n ih =>
    intro k acc h1 hk hn
    rcases Nat.lt_or_ge k 1000 with hlt | hge
    · rw [chunkLoopLB_one_step hc n k acc (by omega)]
      rw [ih (k + 1) _ (by omega) (by omega) (by omega)]
      congr 1
      rw [List.append_assoc]
      congr 1
      have h2 : 1001 - k = (1001 - (k + 1)) + 1 := by omega
      rw [h2, List.range'_succ]
      simp
    · have hke : k = 1000 := by omega
      subst hke
      rw [chunkLoopLB_one_last hc n acc]
      norm_num

theorem chunkDocumentLB_one {c : Char} (hc : c.isWhitespace = false) (n : Nat) (hn : 1001 ≤ n) :
    chunkDocumentLB n [c] 500 100 = some (oneCharChunks c) := by
  obtain ⟨m, rfl⟩ : ∃ m, n = m + 1 := ⟨n - 1, by omega⟩
  unfold chunkDocumentLB
  rw [chunkLoopLB_one_first hc m]
  rw [chunkLoopLB_one_closed hc m 1 _ (by omega) (by omega) (by omega)]
  norm_num [oneCharChunks]

/-- Claim C5 (counterexample): on the one-character document `"a"`, with
the engine's own default configuration, the better/lightweight
`chunk_document` returns 1001 chunks — more than the configured maximum
of 1000 (the `chunk_id > 1000` safety check runs after the append, so it
fires one chunk too late). -/
theorem claim5_counterexample :
    (chunkDocumentLB 1001 ['a'] 500 100).map List.length = some 1001 ∧ 1000 < 1001 := by
  constructor
  · rw [chunkDocumentLB_one (by decide) 1001 (by omega)]
    simp [oneCharChunks]
  · omega

/-- Claim C5 (amended): whenever it terminates, the better/lightweight
chunker emits at most 1001 chunks — the configured maximum of 1000 plus
one, because the limit check runs after the append — while the
ultra-safe chunker respects its configured 50-chunk cap exactly. -/
theorem claim5_amended :
    (∀ (fuel : Nat) (text : Str) (cs ov : Nat) (l : List RawChunk),
       chunkDocumentLB fuel text cs ov = some l → l.length ≤ 1001) ∧
    (∀ (fuel : Nat) (text : Str) (cs ov : Nat) (l : List RawChunk),
       chunkDocumentU fuel text cs ov = some l → l.length ≤ uMaxChunksPerDocument) := by
  constructor
  · intro fuel text cs ov l h
    exact chunkLoopLB_length_le text cs ov fuel 0 0 [] l rfl (by omega) h
  · intro fuel text cs ov l h
    exact chunkLoopU_length_le text cs ov fuel 0 0 [] l rfl (by simp [uMaxChunksPerDocument]) h

/-- Witness for C5: the amended bounds applied to a concrete terminating
run (the empty document). -/
theorem claim5_witness :
    chunkDocumentLB 1 [] 500 100 = some [] ∧ chunkDocumentU 1 [] 800 150 = some [] ∧
    ([] : List RawChunk).length ≤ 1001 ∧
    ([] : List RawChunk).length ≤ uMaxChunksPerDocument :=
  ⟨rfl, rfl, claim5_amended.1 1 [] 500 100 [] rfl, claim5_amended.2 1 [] 800 150 [] rfl⟩

/-! ### Claim C8: ordering, tie-breaking and size of the result list -/

theorem pairwise_and_of {α : Type} {R S : α → α → Prop} :
    ∀ {l : List α}, l.Pairwise R → l.Pairwise S → l.Pairwise (fun a b => R a b ∧ S a b) := by
  intro l
  induction l with
  | nil => intro _ _; exact List.Pairwise.nil
  | cons x l ih =>
    intro hr hs
    rcases List.pairwise_cons.mp hr with ⟨hr1, hr2⟩
    rcases List.pairwise_cons.mp hs with ⟨hs1, hs2⟩
    exact List.pairwise_cons.mpr ⟨fun b hb => ⟨hr1 b hb, hs1 b hb⟩, ih hr2 hs2⟩

theorem betterSorted_pairwise_le (s : EngState) (q : Str) (t : ℚ) :
    (betterSorted s q t).Pairwise (fun a b => candLEb a b = true) :=
  pairwise_sortByB candLEb_total candLEb_trans _

theorem betterSorted_pos_ne (s : EngState) (q : Str) (t : ℚ) :
    (betterSorted s q t).Pairwise (fun a b => a.pos ≠ b.pos) := by
  have hperm := sortByB_perm candLEb (betterCands s q t)
  have hcands : (betterCands s q t).Pairwise (fun a b => a.pos ≠ b.pos) :=
    (betterScanChunks_pos_pairwise s.chunks 0).imp (fun h => Nat.ne_of_lt h)
  exact (List.Perm.pairwise_iff (fun h => h.symm) hperm).mpr hcands

theorem betterSorted_pairwise_strict (s : EngState) (q : Str) (t : ℚ) :
    (betterSorted s q t).Pairwise
      (fun a b => candScore b < candScore a ∨ (candScore a = candScore b ∧ a.pos < b.pos)) := by
  have h := pairwise_and_of (betterSorted_pairwise_le s q t) (betterSorted_pos_ne s q t)
  refine h.imp ?_
  intro a b hab
  obtain ⟨hle, hne⟩ := hab
  simp only [candLEb, Bool.or_eq_true, Bool.and_eq_true, decide_eq_true_eq] at hle
  rcases hle with h1 | ⟨h1, h2⟩
  · exact Or.inl h1
  · exact Or.inr ⟨h1, by omega⟩

theorem mem_betterSorted {s : EngState} {q : Str} {t : ℚ} {c : Cand}
    (h : c ∈ betterSorted s q t) :
    s.chunks.get? c.pos = some (c.cid, c.cd) ∧ c.parts = betterScoreParts q c.cd.text ∧
      t ≤ candScore c := by
  have hc : c ∈ betterCands s q t := (sortByB_perm candLEb _).mem_iff.mp h
  rcases (mem_betterScanChunks s.chunks 0 c).mp hc with ⟨j, hj, hpos, hparts, ht⟩
  have : c.pos = j := by omega
  subst this
  exact ⟨hj, hparts, ht⟩

/-- Claim C8: for every better-engine state, query, `max_results` and
threshold, the returned results are ordered by score, highest first;
the underlying sorted candidate list is ordered by the strict
lexicographic order "higher score first, equal scores by original store
position" (Python's stable descending sort), each candidate's position
pointing back into the insertion-ordered chunk store; and the number of
results never exceeds `min(max_results, 5)`. -/
theorem claim8_search_ordering (s : EngState) (q : Str) (nres : Nat) (t : ℚ) :
    (betterSearchSimilar s q nres t).Pairwise
      (fun a b => b.similarityScore ≤ a.similarityScore) ∧
    (betterSearchSimilar s q nres t).length ≤ min nres 5 ∧
    (betterSorted s q t).Pairwise
      (fun a b => candScore b < candScore a ∨ (candScore a = candScore b ∧ a.pos < b.pos)) ∧
    (betterSorted s q t).Forall (fun c => s.chunks.get? c.pos = some (c.cid, c.cd)) := by
  refine ⟨?_, ?_, betterSorted_pairwise_strict s q t, ?_⟩
  · unfold betterSearchSimilar
    split
    · exact List.Pairwise.nil
    · refine @betterRankFrom_pairwise (fun a b => candLEb a b = true)
        (fun r1 r2 => r2.similarityScore ≤ r1.similarityScore) ?_ _ 1 ?_
      · intro a b i j hab
        simp only [mkBetterResult]
        simp only [candLEb, Bool.or_eq_true, Bool.and_eq_true, decide_eq_true_eq] at hab
        rcases hab with h1 | ⟨h1, _⟩
        · exact le_of_lt h1
        · exact le_of_eq h1.symm
      · exact (betterSorted_pairwise_le s q t).sublist (List.take_sublist _ _)
  · unfold betterSearchSimilar
    split
    · simp
    · rw [betterRankFrom_length, List.length_take]
      omega
  · rw [List.forall_iff_forall_mem]
    intro c hc
    exact (mem_betterSorted hc).1

/-! ### Claim C10: the ultra-safe search scores only the first 100 chunks -/

/-- Claim C10: every result returned by the ultra-safe `search_similar`
comes from one of the first 100 entries of the insertion-ordered chunk
store (`processed_chunks` breaks the scoring loop at 100), so a chunk
stored at position 100 or later is never present in the results, no
matter how high its score would be and whatever threshold is supplied. -/
theorem claim10_first100 (s : UltraState) (q : Str) (nres : Nat) (t : ℚ) :
    (ultraSearchSimilar s q nres t).Forall
      (fun r => ∃ p, p < 100 ∧ ∃ cid cd, s.chunks.get? p = some (cid, cd) ∧
        r.documentId = cd.documentId ∧ r.chunkText = cd.text ∧ r.chunkIndex = cd.chunkIndex) := by
  rw [List.forall_iff_forall_mem]
  intro r hr
  unfold ultraSearchSimilar at hr
  split at hr
  · simp at hr
  · rcases mem_ultraRankFrom _ 1 hr with ⟨c, hc, j, rfl⟩
    have hc2 : c ∈ sortByB uCandLEb (ultraScanChunks q t 0 s.chunks) := List.mem_of_mem_take hc
    have hc3 : c ∈ ultraScanChunks q t 0 s.chunks := (sortByB_perm uCandLEb _).mem_iff.mp hc2
    rcases mem_ultraScanChunks s.chunks 0 c hc3 with ⟨_, hlt, hget⟩
    refine ⟨c.pos, hlt, c.cid, c.cd, ?_, rfl, rfl, rfl⟩
    simpa using hget

/-! ### Claim C2: threshold filtering of search results -/

theorem betterRankFrom_mem_of_mem {c : Cand} :
    ∀ (l : List Cand) (k : Nat), c ∈ l → ∃ j, mkBetterResult c j ∈ betterRankFrom k l := by
  intro l
  induction l with
  | nil => intro k h; simp at h
  | cons c' l ih =>
    intro k h
    rcases List.mem_cons.mp h with rfl | h
    · exact ⟨k, List.mem_cons_self _ _⟩
    · rcases ih (k + 1) h with ⟨j, hj⟩
      exact ⟨j, List.mem_cons_of_mem _ hj⟩

/-- Claim C2 (amended): every returned result's score reaches the
threshold; raising the threshold never increases the number of results;
and a stored chunk whose score reaches the threshold is guaranteed to be
returned only when the number of qualifying chunks fits into the
`min(max_results, 5)` budget (the original "iff" fails because the
result list is truncated to that budget). -/
theorem claim2_amended (s : EngState) (q : Str) (nres : Nat) (t t' : ℚ) :
    (betterSearchSimilar s q nres t).Forall (fun r => t ≤ r.similarityScore) ∧
    (t ≤ t' →
      (betterSearchSimilar s q nres t').length ≤ (betterSearchSimilar s q nres t).length) ∧
    (dedupF (preprocessLB q) ≠ [] → (betterCands s q t).length ≤ min nres 5 →
      (betterCands s q t).Forall (fun c => ∃ r, r ∈ betterSearchSimilar s q nres t ∧
        r.documentId = c.cd.documentId ∧ r.chunkText = c.cd.text ∧
        r.chunkIndex = c.cd.chunkIndex ∧ r.similarityScore = candScore c)) := by
  refine ⟨?_, ?_, ?_⟩
  · rw [List.forall_iff_forall_mem]
    intro r hr
    unfold betterSearchSimilar at hr
    split at hr
    · simp at hr
    · rcases mem_betterRankFrom _ 1 hr with ⟨c, hc, j, rfl⟩
      have hc2 : c ∈ betterSorted s q t := List.mem_of_mem_take hc
      exact (mem_betterSorted hc2).2.2
  · intro ht
    unfold betterSearchSimilar
    split
    · simp
    · rw [betterRankFrom_length, betterRankFrom_length, List.length_take, List.length_take]
      unfold betterSorted
      rw [(sortByB_perm candLEb (betterCands s q t)).length_eq,
        (sortByB_perm candLEb (betterCands s q t')).length_eq]
      have := @betterScanChunks_length_antitone q t t' ht s.chunks 0
      unfold betterCands
      omega
  · intro hq hlen
    rw [List.forall_iff_forall_mem]
    intro c hc
    have hsortlen : (betterSorted s q t).length ≤ min nres 5 := by
      unfold betterSorted
      rw [(sortByB_perm candLEb (betterCands s q t)).length_eq]
      exact hlen
    have htake : (betterSorted s q t).take (min nres 5) = betterSorted s q t :=
      List.take_of_length_le hsortlen
    have hcs : c ∈ betterSorted s q t := (sortByB_perm candLEb _).mem_iff.mpr hc
    rcases betterRankFrom_mem_of_mem (betterSorted s q t) 1 hcs with ⟨j, hj⟩
    refine ⟨mkBetterResult c j, ?_, rfl, rfl, rfl, rfl⟩
    unfold betterSearchSimilar
    rw [if_neg hq, htake]
    exact hj

/-- Claim C2 (counterexample): in a state with two stored chunks both of
text `"hello"`, with query `"hello"`, `max_results = 1` and threshold
`0.1`, the second chunk scores `1.5 ≥ 0.1` yet is absent from the
results (only the first chunk's document is returned), refuting "a
stored chunk appears in the results iff `score(q,c) ≥ t`". -/
theorem claim2_counterexample :
    mkRat 1 10 ≤ betterScore helloT helloT ∧
    (['c', '2'], mkCD ['d', '2'] helloT) ∈ twoHelloState.chunks ∧
    (betterSearchSimilar twoHelloState helloT 1 (mkRat 1 10)).map (fun r => r.documentId) =
      [['d', '1']] := by
  refine ⟨by decide, by decide, by decide⟩

/-- Witness for C2: the amended theorem applied to the two-chunk state
with a budget that fits all qualifying chunks. -/
theorem claim2_witness :
    (mkRat 1 10 ≤ mkRat 1 5) ∧ dedupF (preprocessLB helloT) ≠ [] ∧
    (betterCands twoHelloState helloT (mkRat 1 10)).length ≤ min 5 5 ∧
    (betterSearchSimilar twoHelloState helloT 5 (mkRat 1 10)).Forall
      (fun r => mkRat 1 10 ≤ r.similarityScore) ∧
    (betterSearchSimilar twoHelloState helloT 5 (mkRat 1 5)).length ≤
      (betterSearchSimilar twoHelloState helloT 5 (mkRat 1 10)).length ∧
    (betterCands twoHelloState helloT (mkRat 1 10)).Forall
      (fun c => ∃ r, r ∈ betterSearchSimilar twoHelloState helloT 5 (mkRat 1 10) ∧
        r.documentId = c.cd.documentId ∧ r.chunkText = c.cd.text ∧
        r.chunkIndex = c.cd.chunkIndex ∧ r.similarityScore = candScore c) := by
  refine ⟨by decide, by decide, by decide,
    (claim2_amended twoHelloState helloT 5 (mkRat 1 10) (mkRat 1 5)).1,
    (claim2_amended twoHelloState helloT 5 (mkRat 1 10) (mkRat 1 5)).2.1 (by decide),
    (claim2_amended twoHelloState helloT 5 (mkRat 1 10) (mkRat 1 5)).2.2 (by decide) (by decide)⟩

/-! ### Claim C6: the adjacent-bigram (partial phrase) signal -/

theorem zero_ne_half : (0 : ℚ) ≠ mkRat 1 2 := by decide

theorem pairPhraseLoop_eq_half_iff (cl : Str) :
    ∀ ws : List Str, pairPhraseLoop cl ws = mkRat 1 2 ↔
      ∃ a b, (a, b) ∈ ws.zip ws.tail ∧ strHasSub cl (a ++ ' ' :: b) = true := by
  intro ws
  induction ws with
  | nil =>
    simp [pairPhraseLoop, zero_ne_half]
  | cons a ws ih =>
    cases ws with
    | nil => simp [pairPhraseLoop, zero_ne_half]
    | cons b ws2 =>
      simp only [pairPhraseLoop]
      split
      · rename_i h
        constructor
        · intro _
          exact ⟨a, b, by simp, h⟩
        · intro _
          rfl
      · rename_i h
        rw [ih]
        constructor
        · rintro ⟨x, y, hxy, hsub⟩
          exact ⟨x, y, by simpa using Or.inr (by simpa using hxy), hsub⟩
        · rintro ⟨x, y, hxy, hsub⟩
          simp only [List.tail_cons, List.zip_cons_cons, List.mem_cons] at hxy
          rcases hxy with hxy | hxy
          · obtain ⟨rfl, rfl⟩ := Prod.mk.inj hxy
            exact absurd hsub (by simpa using h)
          · exact ⟨x, y, by simpa using hxy, hsub⟩

/-- Claim C6 (amended): the medium partial-phrase bonus is awarded iff
two tokens that are adjacent in the engine's listed deduplicated
query-token set (`list(set(tokens))`, an implementation-defined set
enumeration modelled as first-occurrence order — not the query's own
token order) occur, joined by a single space, as a raw substring of the
chunk's lowercased text. -/
theorem claim6_amended (q ctext : Str) :
    (betterScoreParts q ctext).pairPhraseBonus = mkRat 1 2 ↔
      ∃ a b, (a, b) ∈ (dedupF (preprocessLB q)).zip (dedupF (preprocessLB q)).tail ∧
        strHasSub (lowerStr ctext) (a ++ ' ' :: b) = true := by
  have hproj : (betterScoreParts q ctext).pairPhraseBonus =
      pairPhraseLoop (lowerStr ctext) (dedupF (preprocessLB q)) := rfl
  rw [hproj]
  exact pairPhraseLoop_eq_half_iff _ _

/-- Claim C6 (counterexample): for the query `"hello hello"` scored
against the chunk `"hello hello"`, the two consecutive query tokens
`hello`, `hello` do appear as a contiguous two-word phrase in the chunk,
yet the computed partial-phrase bonus is `0`, not `0.5`: the loop walks
`list(set(...))`, which collapses the duplicate token and leaves no
adjacent pair. -/
theorem claim6_counterexample :
    wordTokens helloHelloT = [helloT, helloT] ∧
    strHasSub (lowerStr helloHelloT) (helloT ++ ' ' :: helloT) = true ∧
    (betterScoreParts helloHelloT helloHelloT).pairPhraseBonus = 0 := by
  refine ⟨by decide, by decide, by decide⟩

/-! ### Rational helper equations -/

theorem ratAdd_eq (a b : ℚ) : ratAdd a b = a + b := by
  rw [Rat.add_def, Rat.normalize_eq_mkRat]
  rfl

theorem ratMul_eq (a b : ℚ) : ratMul a b = a * b := (Rat.mul_eq_mkRat a b).symm

theorem ratDivNat_eq (n d : Nat) : ratDivNat n d = (n : ℚ) / (d : ℚ) := by
  rw [ratDivNat, Rat.mkRat_eq_divInt, Rat.divInt_eq_div]
  norm_num

theorem ratDivNat_zero (d : Nat) : ratDivNat 0 d = 0 := by
  rw [ratDivNat, Rat.mkRat_eq_divInt]
  exact Rat.zero_divInt _

/-! ### Claim C7: substring machinery and disjoint-token searches -/

theorem strStarts_exists : ∀ p s : Str, strStarts p s = true ↔ ∃ r, s = p ++ r := by
  intro p
  induction p with
  | nil => intro s; simp [strStarts]
  | cons c p ih =>
    intro s
    cases s with
    | nil => simp [strStarts]
    | cons d s2 =>
      simp only [strStarts, Bool.and_eq_true, beq_iff_eq]
      rw [ih s2]
      constructor
      · rintro ⟨rfl, r, rfl⟩
        exact ⟨r, rfl⟩
      · rintro ⟨r, h⟩
        injection h with h1 h2
        exact ⟨h1.symm, r, h2⟩

theorem strHasSub_exists : ∀ s p : Str, strHasSub s p = true ↔ ∃ l r, s = l ++ p ++ r := by
  intro s
  induction s with
  | nil =>
    intro p
    simp only [strHasSub, strHasSubAux, beq_iff_eq]
    constructor
    · rintro rfl
      exact ⟨[], [], rfl⟩
    · rintro ⟨l, r, h⟩
      have hlen := congrArg List.length h
      simp only [List.length_nil, List.length_append] at hlen
      have : p.length = 0 := by omega
      exact List.eq_nil_of_length_eq_zero this
  | cons c s ih =>
    intro p
    simp only [strHasSub, strHasSubAux, Bool.or_eq_true]
    rw [strStarts_exists]
    have ihs := ih p
    simp only [strHasSub] at ihs
    rw [ihs]
    constructor
    · rintro (⟨r, hr⟩ | ⟨l, r, hlr⟩)
      · exact ⟨[], r, by simpa using hr⟩
      · exact ⟨c :: l, r, by simp [hlr]⟩
    · rintro ⟨l, r, hlr⟩
      cases l with
      | nil => exact Or.inl ⟨r, by simpa using hlr⟩
      | cons x l2 =>
        right
        injection hlr with h1 h2
        exact ⟨l2, r, h2⟩

theorem strHasSub_of_part_of_sub {cl big w : Str}
    (hw : ∃ pre post, big = pre ++ w ++ post) (hbig : strHasSub cl big = true) :
    strHasSub cl w = true := by
  rcases hw with ⟨p1, p2, rfl⟩
  rcases (strHasSub_exists cl _).mp hbig with ⟨l, r, hl⟩
  refine (strHasSub_exists cl w).mpr ⟨l ++ p1, p2 ++ r, ?_⟩
  rw [hl]
  simp [List.append_assoc]

theorem mem_wordTokensAux_parts :
    ∀ (fuel : Nat) (l w : Str), w ∈ wordTokensAux fuel l → ∃ pre post, l = pre ++ w ++ post := by
  intro fuel
  induction fuel with
  | zero => intro l w h; simp [wordTokensAux] at h
  | succ n ih =>
    intro l w h
    cases l with
    | nil => simp [wordTokensAux] at h
    | cons c cs =>
      simp only [wordTokensAux] at h
      split at h
      · rcases List.mem_cons.mp h with rfl | h2
        · exact ⟨[], cs.dropWhile isWordChar, by simp⟩
        · rcases ih _ _ h2 with ⟨pre, post, hp⟩
          refine ⟨(c :: cs.takeWhile isWordChar) ++ pre, post, ?_⟩
          have hcs : cs.takeWhile isWordChar ++ cs.dropWhile isWordChar = cs := by simp
          calc c :: cs = c :: (cs.takeWhile isWordChar ++ cs.dropWhile isWordChar) := by rw [hcs]
            _ = (c :: cs.takeWhile isWordChar ++ pre) ++ w ++ post := by rw [hp]; simp
      · rcases ih _ _ h with ⟨pre, post, hp⟩
        exact ⟨c :: pre, post, by simp [hp]⟩

theorem mem_wordTokens_parts {w s : Str} (h : w ∈ wordTokens s) :
    ∃ pre post, lowerStr s = pre ++ w ++ post :=
  mem_wordTokensAux_parts _ _ _ h

theorem mem_dedupAux : ∀ (l seen : List Str) (x : Str), x ∈ dedupAux seen l → x ∈ l := by
  intro l
  induction l with
  | nil => intro seen x h; simp [dedupAux] at h
  | cons w ws ih =>
    intro seen x h
    simp only [dedupAux] at h
    split at h
    · exact List.mem_cons_of_mem _ (ih _ _ h)
    · rcases List.mem_cons.mp h with rfl | h
      · exact List.mem_cons_self _ _
      · exact List.mem_cons_of_mem _ (ih _ _ h)

theorem mem_dedupF {l : List Str} {x : Str} (h : x ∈ dedupF l) : x ∈ l :=
  mem_dedupAux l [] x h

theorem interCount_eq_zero {a b : List Str} (h : ∀ w ∈ a, w ∉ b) : interCount a b = 0 := by
  unfold interCount
  rw [List.length_eq_zero, List.filter_eq_nil_iff]
  intro x hx
  simpa using h x hx

theorem pairPhraseLoop_zero_or_half (cl : Str) :
    ∀ ws : List Str, pairPhraseLoop cl ws = 0 ∨ pairPhraseLoop cl ws = mkRat 1 2 := by
  intro ws
  induction ws with
  | nil => exact Or.inl rfl
  | cons a ws ih =>
    cases ws with
    | nil => exact Or.inl rfl
    | cons b ws2 =>
      simp only [pairPhraseLoop]
      split
      · exact Or.inr rfl
      · exact ih

theorem wordBonusLoop_eq_zero {cl : Str} :
    ∀ ws : List Str, (∀ w ∈ ws, strHasSub cl w = false) → wordBonusLoop cl ws = 0 := by
  intro ws
  induction ws with
  | nil => intro _; rfl
  | cons w ws ih =>
    intro h
    simp only [wordBonusLoop]
    rw [if_neg (by simp [h w (List.mem_cons_self _ _)]), ratAdd_eq,
      ih (fun x hx => h x (List.mem_cons_of_mem _ hx))]
    norm_num

theorem proximityLoop_eq_zero {cset : List Str} :
    ∀ ws : List Str, (∀ w ∈ ws, w ∉ cset) → proximityLoop cset ws = 0 := by
  intro ws
  induction ws with
  | nil => intro _; rfl
  | cons a ws ih =>
    intro h
    cases ws with
    | nil => rfl
    | cons b ws2 =>
      simp only [proximityLoop]
      rw [if_neg ?_, ratAdd_eq, ih (fun x hx => h x (List.mem_cons_of_mem _ hx))]
      · norm_num
      · rintro ⟨ha, _⟩
        exact h a (List.mem_cons_self _ _) ha

/-- Under the hypotheses of the amended C7 — every query token fails to
occur even as a raw substring of the lowercased chunk text — all six
scorer signals vanish. -/
theorem betterScore_eq_zero {q ct : Str}
    (hq : preprocessLB q ≠ [])
    (hfree : ∀ w ∈ preprocessLB q, strHasSub (lowerStr ct) w = false) :
    betterFinalScore (betterScoreParts q ct) = 0 := by
  obtain ⟨w0, hw0⟩ : ∃ w, w ∈ preprocessLB q := List.exists_mem_of_ne_nil _ hq
  have hdisj : ∀ w ∈ dedupF (preprocessLB q), w ∉ dedupF (preprocessLB ct) := by
    intro w hwq hwc
    have h1 : w ∈ preprocessLB ct := mem_dedupF hwc
    have h2 : strHasSub (lowerStr ct) w = true :=
      (strHasSub_exists _ _).mpr (mem_wordTokens_parts h1)
    rw [hfree w (mem_dedupF hwq)] at h2
    exact absurd h2 (by simp)
  have hinter : interCount (dedupF (preprocessLB q)) (dedupF (preprocessLB ct)) = 0 :=
    interCount_eq_zero hdisj
  have hphrase : strHasSub (lowerStr ct) (lowerStr q) = false := by
    cases hp : strHasSub (lowerStr ct) (lowerStr q) with
    | false => rfl
    | true =>
      have hw0i := mem_wordTokens_parts hw0
      have := strHasSub_of_part_of_sub hw0i hp
      rw [hfree w0 hw0] at this
      exact absurd this (by simp)
  have hpair : pairPhraseLoop (lowerStr ct) (dedupF (preprocessLB q)) = 0 := by
    rcases pairPhraseLoop_zero_or_half (lowerStr ct) (dedupF (preprocessLB q)) with h | h
    · exact h
    · exfalso
      rcases (pairPhraseLoop_eq_half_iff _ _).mp h with ⟨a, b, hab, hsub⟩
      have ha : a ∈ dedupF (preprocessLB q) := (List.of_mem_zip hab).1
      have : strHasSub (lowerStr ct) a = true :=
        strHasSub_of_part_of_sub ⟨[], ' ' :: b, by simp⟩ hsub
      rw [hfree a (mem_dedupF ha)] at this
      exact absurd this (by simp)
  have hwb : wordBonusLoop (lowerStr ct) (dedupF (preprocessLB q)) = 0 :=
    wordBonusLoop_eq_zero _ (fun w hw => hfree w (mem_dedupF hw))
  have hprox : proximityLoop (dedupF (preprocessLB ct)) (dedupF (preprocessLB q)) = 0 :=
    proximityLoop_eq_zero _ hdisj
  show betterFinalScore
      ⟨_, _, _, _, _, _⟩ = 0
  unfold betterFinalScore
  simp only [ratAdd_eq, ratMul_eq]
  simp only [hinter, hphrase, hpair, hwb, hprox, if_false, Bool.false_eq_true, ratDivNat_zero]
  split <;> split <;> norm_num

theorem betterScanChunks_eq_nil {q : Str} {t : ℚ} :
    ∀ (l : List (Str × ChunkData)) (i : Nat),
      (∀ cid cd, (cid, cd) ∈ l → ¬ t ≤ betterFinalScore (betterScoreParts q cd.text)) →
      betterScanChunks q t i l = [] := by
  intro l
  induction l with
  | nil => intro i _; rfl
  | cons e rest ih =>
    intro i h
    obtain ⟨cid, cd⟩ := e
    simp only [betterScanChunks]
    rw [if_neg (h cid cd (List.mem_cons_self _ _)), List.nil_append]
    exact ih _ (fun c d hm => h c d (List.mem_cons_of_mem _ hm))

/-- Claim C7 (amended): if the threshold is positive and no query token
occurs even as a raw substring of any stored chunk's lowercased text
(which in particular makes every chunk's token set disjoint from the
query's), then `search` returns the empty sequence.  The original claim
fails because the scorer awards substring-based bonuses (exact-phrase,
partial-phrase, individual-word) that do not require any shared token,
and because a non-positive threshold admits chunks of score zero. -/
theorem claim7_amended (s : EngState) (q : Str) (n : Nat) (t : ℚ) (ht : 0 < t)
    (hfree : s.chunks.Forall
      (fun e => (preprocessLB q).Forall (fun w => strHasSub (lowerStr e.2.text) w = false))) :
    betterSearchSimilar s q n t = [] := by
  unfold betterSearchSimilar
  split
  · rfl
  · rename_i hq
    have hq' : preprocessLB q ≠ [] := by
      intro h
      exact hq (by rw [dedupF, h]; rfl)
    have hfree' : ∀ cid cd, (cid, cd) ∈ s.chunks → ∀ w ∈ preprocessLB q,
        strHasSub (lowerStr cd.text) w = false := by
      intro cid cd hmem w hw
      have h1 := (List.forall_iff_forall_mem.mp hfree) (cid, cd) hmem
      exact (List.forall_iff_forall_mem.mp h1) w hw
    have hscan : betterCands s q t = [] := by
      unfold betterCands
      apply betterScanChunks_eq_nil
      intro cid cd hmem
      rw [betterScore_eq_zero hq' (hfree' cid cd hmem)]
      intro hle
      exact absurd ht (not_lt.mpr hle)
    show betterRankFrom 1 ((betterSorted s q t).take (min n 5)) = []
    rw [betterSorted, hscan]
    simp [sortByB, betterRankFrom]

/-- Claim C7 (counterexample): two concrete refutations of "zero token
overlap implies empty results regardless of threshold".  First, query
`"bc"` against the single stored chunk `"abcd"`: the token sets `{bc}`
and `{abcd}` are disjoint, yet `"bc"` is a raw substring of `"abcd"`, so
the chunk scores `1.1` and is returned at threshold `0.01`.  Second,
query `"abc"` against the chunk `"xyz"` at threshold `0`: every signal
is zero but `0 ≥ 0` passes the filter, so the chunk is returned. -/
theorem claim7_counterexample :
    wordTokens ['b', 'c'] = [['b', 'c']] ∧
    wordTokens ['a', 'b', 'c', 'd'] = [['a', 'b', 'c', 'd']] ∧
    (['b', 'c'] : Str) ≠ ['a', 'b', 'c', 'd'] ∧
    (betterSearchSimilar abcdState ['b', 'c'] 3 (mkRat 1 100)).length = 1 ∧
    wordTokens ['a', 'b', 'c'] = [['a', 'b', 'c']] ∧
    wordTokens ['x', 'y', 'z'] = [['x', 'y', 'z']] ∧
    (betterSearchSimilar xyzState ['a', 'b', 'c'] 3 0).length = 1 := by
  refine ⟨by decide, by decide, by decide, by decide, by decide, by decide, by decide⟩

/-- Witness for C7: the amended theorem applied to the `"xyz"` chunk
with query `"abc"` and positive threshold. -/
theorem claim7_witness :
    (0 < mkRat 1 10) ∧
    (xyzState.chunks.Forall
      (fun e => (preprocessLB ['a', 'b', 'c']).Forall
        (fun w => strHasSub (lowerStr e.2.text) w = false))) ∧
    betterSearchSimilar xyzState ['a', 'b', 'c'] 3 (mkRat 1 10) = [] := by
  refine ⟨by decide, by decide,
    claim7_amended xyzState ['a', 'b', 'c'] 3 (mkRat 1 10) (by decide) (by decide)⟩

/-! ### Claim C4: the inverted-index invariant under add_document -/

theorem betterAddStep_index_mono {x w d : Str} {md : Option Meta} {st : EngState} {ch : RawChunk}
    (h : x ∈ lookupPostings st.index w) :
    x ∈ lookupPostings (betterAddStep d md st ch).index w :=
  lookupPostings_indexAddChunk_mono _ _ h

theorem betterAddFold_index_mono {x w d : Str} {md : Option Meta} :
    ∀ (chs : List RawChunk) (st : EngState),
      x ∈ lookupPostings st.index w →
      x ∈ lookupPostings ((chs.foldl (betterAddStep d md) st)).index w := by
  intro chs
  induction chs with
  | nil => intro st h; exact h
  | cons ch chs ih =>
    intro st h
    rw [List.foldl_cons]
    exact ih _ (betterAddStep_index_mono h)

theorem betterAddStep_index_self {d : Str} {md : Option Meta} {st : EngState} {ch : RawChunk}
    {w : Str} (hw : w ∈ preprocessLB ch.text) :
    (d ++ usep ++ ch.cid) ∈ lookupPostings ((betterAddStep d md st ch)).index w :=
  lookupPostings_indexAddChunk_self _ _ hw

theorem betterAddStep_chunks_self {d : Str} {md : Option Meta} {st : EngState} {ch : RawChunk} :
    lookupAssoc (betterAddStep d md st ch).chunks (d ++ usep ++ ch.cid) =
      some ⟨d, ch.text, ch.chunkIndex, ch.startPos, ch.endPos, ch.size, md.getD []⟩ :=
  lookupAssoc_upsert_self _ _ _

theorem betterAddStep_chunks_lookup_ne {k d : Str} {md : Option Meta} {st : EngState}
    {ch : RawChunk} (hne : k ≠ d ++ usep ++ ch.cid) :
    lookupAssoc (betterAddStep d md st ch).chunks k = lookupAssoc st.chunks k :=
  lookupAssoc_upsert_ne hne _ _

theorem betterAddFold_chunks_lookup_ne {k d : Str} {md : Option Meta} :
    ∀ (chs : List RawChunk) (st : EngState),
      (∀ ch ∈ chs, k ≠ d ++ usep ++ ch.cid) →
      lookupAssoc ((chs.foldl (betterAddStep d md) st)).chunks k = lookupAssoc st.chunks k := by
  intro chs
  induction chs with
  | nil => intro st _; rfl
  | cons ch chs ih =>
    intro st h
    rw [List.foldl_cons, ih _ (fun x hx => h x (List.mem_cons_of_mem _ hx)),
      betterAddStep_chunks_lookup_ne (h ch (List.mem_cons_self _ _))]

/-- The forward inverted-index invariant: every token of every stored
chunk's current text posts that chunk's id. -/
def InvForward (st : EngState) : Prop :=
  ∀ cid cd, (cid, cd) ∈ st.chunks → ∀ w ∈ preprocessLB cd.text, cid ∈ lookupPostings st.index w

theorem betterAddStep_inv {d : Str} {md : Option Meta} {st : EngState} {ch : RawChunk}
    (h : InvForward st) : InvForward (betterAddStep d md st ch) := by
  intro cid cd hmem w hw
  rcases mem_upsert hmem with ⟨rfl, rfl⟩ | hold
  · exact betterAddStep_index_self hw
  · exact betterAddStep_index_mono (h cid cd hold w hw)

theorem betterAddFold_inv {d : Str} {md : Option Meta} :
    ∀ (chs : List RawChunk) (st : EngState),
      InvForward st → InvForward (chs.foldl (betterAddStep d md) st) := by
  intro chs
  induction chs with
  | nil => intro st h; exact h
  | cons ch chs ih =>
    intro st h
    rw [List.foldl_cons]
    exact ih _ (betterAddStep_inv h)

theorem betterAddDocument_inv {fuel : Nat} {s : EngState} {d t0 : Str} {md : Option Meta}
    {s2 : EngState} {b : Bool} (hadd : betterAddDocument fuel s d t0 md = some (s2, b))
    (h : InvForward s) : InvForward s2 := by
  simp only [betterAddDocument] at hadd
  split at hadd
  · exact absurd hadd (by simp)
  · split at hadd
    · simp only [Option.some.injEq, Prod.mk.injEq] at hadd
      rw [← hadd.1]
      exact h
    · simp only [Option.some.injEq, Prod.mk.injEq] at hadd
      rw [← hadd.1]
      refine betterAddFold_inv _ _ ?_
      intro cid cd hmem w hw
      exact h cid cd hmem w hw

theorem applyAdds_inv :
    ∀ (ops : List (Str × Str × Option Meta)) (fuel : Nat) (s0 s : EngState),
      applyAdds fuel s0 ops = some s → InvForward s0 → InvForward s := by
  intro ops
  induction ops with
  | nil =>
    intro fuel s0 s h h0
    simp only [applyAdds, Option.some.injEq] at h
    rw [← h]
    exact h0
  | cons op ops ih =>
    intro fuel s0 s h h0
    obtain ⟨d, t0, md⟩ := op
    simp only [applyAdds] at h
    split at h
    · exact absurd h (by simp)
    · rename_i s1b heq
      exact ih fuel _ s h (betterAddDocument_inv heq h0)

/-- Claim C4 (amended): after any sequence of `add_document` calls from
a fresh better engine — re-adding an already-present document id
included — every term occurring (after normalization) in the text
currently stored for a chunk posts that chunk's id in the inverted
index.  Only this forward direction survives: documents and chunks are
overwritten on re-add, but `_build_inverted_index` only ever adds
postings, so the reverse direction fails once a document is re-added
with different text (see the counterexample). -/
theorem claim4_amended (fuel : Nat) (ops : List (Str × Str × Option Meta)) (s : EngState)
    (h : applyAdds fuel emptyEngState ops = some s) :
    s.chunks.Forall (fun e => (preprocessLB e.2.text).Forall
      (fun w => e.1 ∈ lookupPostings s.index w)) := by
  have hinv : InvForward s := by
    refine applyAdds_inv ops fuel emptyEngState s h ?_
    intro cid cd hmem
    simp [emptyEngState] at hmem
  rw [List.forall_iff_forall_mem]
  intro e he
  rw [List.forall_iff_forall_mem]
  intro w hw
  exact hinv e.1 e.2 he w hw

/-- Witness for C4: the amended invariant applied to the empty add
sequence. -/
theorem claim4_witness :
    applyAdds 1 emptyEngState [] = some emptyEngState ∧
    emptyEngState.chunks.Forall (fun e => (preprocessLB e.2.text).Forall
      (fun w => e.1 ∈ lookupPostings emptyEngState.index w)) :=
  ⟨rfl, claim4_amended 1 [] emptyEngState rfl⟩

theorem natToStrAux_ne_nil : ∀ (f n : Nat), natToStrAux (f + 1) n ≠ [] := by
  intro f n
  simp only [natToStrAux]
  split
  · simp
  · simp

theorem natToStr_len_two {k : Nat} (hk : 10 ≤ k) : 2 ≤ (natToStr k).length := by
  unfold natToStr
  simp only [natToStrAux]
  rw [if_neg (by omega)]
  obtain ⟨m, rfl⟩ : ∃ m, k = m + 1 := ⟨k - 1, by omega⟩
  have h1 : natToStrAux (m + 1) ((m + 1) / 10) ≠ [] := natToStrAux_ne_nil m _
  have h2 : 1 ≤ (natToStrAux (m + 1) ((m + 1) / 10)).length := by
    cases hx : natToStrAux (m + 1) ((m + 1) / 10) with
    | nil => exact absurd hx h1
    | cons a l => simp
  simp only [List.length_append, List.length_singleton]
  omega

theorem natToStr_ne_zeroStr {k : Nat} (hk : 1 ≤ k) : natToStr k ≠ natToStr 0 := by
  rcases Nat.lt_or_ge k 10 with hlt | hge
  · revert hk hlt
    revert k
    decide
  · intro h
    have h1 := natToStr_len_two hge
    rw [h] at h1
    have : (natToStr 0).length = 1 := by decide
    omega

theorem chunkName_ne_zero {k : Nat} (hk : 1 ≤ k) : chunkName k ≠ chunkName 0 := by
  intro h
  unfold chunkName at h
  exact natToStr_ne_zeroStr hk (List.append_cancel_left h)

theorem cid_ne_c4cid0 {k : Nat} (hk : 1 ≤ k) :
    c4cid0 ≠ ['d'] ++ usep ++ chunkName k := by
  intro h
  unfold c4cid0 at h
  have h2 : chunkName 0 = chunkName k := List.append_cancel_left h
  exact chunkName_ne_zero hk h2.symm

theorem betterAdd_one (c : Char) (hc : c.isWhitespace = false) (s : EngState) (d : Str)
    (md : Option Meta) :
    betterAddDocument 1001 s d [c] md =
      some ((oneCharChunks c).foldl (betterAddStep d md)
        ⟨s.collectionName,
          upsert s.documents d ⟨[c], md.getD [], (oneCharChunks c).length, ([c] : Str).length⟩,
          s.chunks, s.index⟩, true) := by
  simp only [betterAddDocument]
  rw [show (if 100000 < ([c] : Str).length then ([c] : Str).take 100000 else [c]) = [c] from
    by norm_num]
  rw [chunkDocumentLB_one hc 1001 (by omega)]
  split
  · rename_i heq
    exact absurd heq (by simp)
  · rename_i chs heq
    injection heq with heq
    subst heq
    rw [if_neg (by simp [oneCharChunks])]

theorem applyAdds_cons_some {fuel : Nat} {s : EngState} {d t0 : Str} {md : Option Meta}
    {s' : EngState} {b : Bool} {ops : List (Str × Str × Option Meta)}
    (h : betterAddDocument fuel s d t0 md = some (s', b)) :
    applyAdds fuel s ((d, t0, md) :: ops) = applyAdds fuel s' ops := by
  simp only [applyAdds, h]

/-- Claim C4 (counterexample): add document `"d"` with text `"a"`, then
re-add the same id with text `"b"`.  The chunk store then holds text
`"b"` for chunk `"d_chunk_0"` (documents and chunks are overwritten),
but the inverted index still posts `"d_chunk_0"` under the term `"a"`,
which does not occur in the chunk's current text: `_build_inverted_index`
only ever adds postings, so re-adding merges the index instead of
overwriting it, and the "iff" of the claim fails. -/
theorem claim4_counterexample :
    (applyAdds 1001 emptyEngState c4ops).map
      (fun s => (lookupPostings s.index ['a']).contains c4cid0) = some true ∧
    (applyAdds 1001 emptyEngState c4ops).map (fun s => lookupAssoc s.chunks c4cid0) =
      some (some ⟨['d'], ['b'], 0, 0, 1, 1, []⟩) ∧
    ['a'] ∉ preprocessLB ['b'] := by
  have ha := betterAdd_one 'a' (by decide) emptyEngState ['d'] none
  refine ⟨?_, ?_, by decide⟩
  · rw [show c4ops = (['d'], ['a'], none) ::
        [((['d'] : Str), (['b'] : Str), (none : Option Meta))] from rfl,
      applyAdds_cons_some ha,
      applyAdds_cons_some (betterAdd_one 'b' (by decide) _ ['d'] none),
      show ∀ s : EngState, applyAdds 1001 s [] = some s from fun _ => rfl,
      Option.map_some']
    refine congrArg some ?_
    show List.elem c4cid0 (lookupPostings _ ['a']) = true
    refine List.elem_iff.mpr ?_
    apply betterAddFold_index_mono
    dsimp only
    rw [show oneCharChunks 'a' = ⟨chunkName 0, ['a'], 0, 1, 1, 0⟩ ::
      (List.range' 1 1000).map (stuckChunk 'a') from rfl, List.foldl_cons]
    apply betterAddFold_index_mono
    exact betterAddStep_index_self (by decide)
  · rw [show c4ops = (['d'], ['a'], none) ::
        [((['d'] : Str), (['b'] : Str), (none : Option Meta))] from rfl,
      applyAdds_cons_some ha,
      applyAdds_cons_some (betterAdd_one 'b' (by decide) _ ['d'] none),
      show ∀ s : EngState, applyAdds 1001 s [] = some s from fun _ => rfl,
      Option.map_some']
    refine congrArg some ?_
    rw [show oneCharChunks 'b' = ⟨chunkName 0, ['b'], 0, 1, 1, 0⟩ ::
      (List.range' 1 1000).map (stuckChunk 'b') from rfl, List.foldl_cons]
    refine Eq.trans (betterAddFold_chunks_lookup_ne _ _ ?_) ?_
    · intro ch hch
      rcases List.mem_map.mp hch with ⟨k, hk, rfl⟩
      rcases List.mem_range'.mp hk with ⟨i, hi, rfl⟩
      exact cid_ne_c4cid0 (by omega)
    · rw [show c4cid0 = ['d'] ++ usep ++
        (⟨chunkName 0, ['b'], 0, 1, 1, 0⟩ : RawChunk).cid from rfl, betterAddStep_chunks_self]
      rfl
